import Mathlib

/-!
# Verification of the node-based dataflow execution engine

Shallow embedding of the TypeScript sources of the repository
(`src/types/index.ts`, `src/core/BaseNode.ts`,
`src/error-handling/CircuitBreaker.ts`, `RetryPolicy.ts`,
`DeadLetterQueue.ts`, `ErrorHandling.ts`, `src/core/NodeExecutor.ts`).

Conventions used throughout:
* JavaScript `Map` objects are modelled as association lists in insertion
  order (`Map.set` on a fresh key appends; deletion removes the entry).
  `Set` objects that are only used for membership are modelled as lists.
* Timestamps (`Date.now()`) are natural numbers of milliseconds and are
  passed explicitly to the operations that read the clock.
* `async` functions contain no real concurrency that is observable in the
  properties below (levels are awaited as a whole); they are modelled as
  pure functions, with promise rejection modelled by `Except`.
* Side-effecting observers (`console.*`, event emission, `onRetry`,
  `onStateChange`, the context `errorHandler` sink) do not influence the
  data flow and are not modelled.
-/

namespace VzNode

abbrev NodeId := String
abbrev PortId := String

/-- `Connection` from `src/types/index.ts`. -/
structure Connection where
  id : String
  fromNode : NodeId
  fromPort : PortId
  toNode : NodeId
  toPort : PortId
deriving DecidableEq, Repr

/-! ## Circuit breaker (`src/error-handling/CircuitBreaker.ts`) -/

/-- `CircuitState` enum. -/
inductive CircuitState where
  | CLOSED
  | OPEN
  | HALF_OPEN
deriving DecidableEq, Repr

/-- `CircuitBreakerConfig` (observer callbacks omitted: they do not affect
the state evolution). -/
structure CircuitBreakerConfig where
  failureThreshold : Nat
  successThreshold : Nat
  resetTimeout : Nat
  failureWindow : Nat
deriving DecidableEq, Repr

/-- A timestamped `FailureRecord`; the stored `Error` is kept as its
message string. -/
structure FailureRecord where
  timestamp : Nat
  error : String
deriving DecidableEq, Repr

/-- Mutable state of a `CircuitBreaker` instance. -/
structure CircuitBreaker where
  config : CircuitBreakerConfig
  state : CircuitState
  failures : List FailureRecord
  successes : Nat
  nextAttemptTime : Nat
deriving DecidableEq, Repr

namespace CircuitBreaker

/-- `transitionTo` (the state-change callback and logging are omitted). -/
def transitionTo (cb : CircuitBreaker) (newState : CircuitState) : CircuitBreaker :=
  { cb with state := newState }

/-- `onSuccess`. -/
def onSuccess (cb : CircuitBreaker) : CircuitBreaker :=
  if cb.state = CircuitState.HALF_OPEN then
    let cb := { cb with successes := cb.successes + 1 }
    if cb.config.successThreshold ≤ cb.successes then
      { (transitionTo cb CircuitState.CLOSED) with failures := [], successes := 0 }
    else cb
  else if cb.state = CircuitState.CLOSED then
    { cb with failures := [] }
  else cb

/-- `onFailure`: push a timestamped record, prune records outside the
failure window, and open the circuit when the threshold is reached while
CLOSED or HALF_OPEN. -/
def onFailure (cb : CircuitBreaker) (now : Nat) (error : String) : CircuitBreaker :=
  let cb := { cb with failures := cb.failures ++ [FailureRecord.mk now error] }
  let cb := { cb with
    failures := cb.failures.filter (fun f => decide (now - f.timestamp < cb.config.failureWindow)) }
  if cb.state = CircuitState.CLOSED ∨ cb.state = CircuitState.HALF_OPEN then
    if cb.config.failureThreshold ≤ cb.failures.length then
      { (transitionTo cb CircuitState.OPEN) with
        nextAttemptTime := now + cb.config.resetTimeout, successes := 0 }
    else cb
  else cb

/-- Observable outcome of one `execute` call: either the call was rejected
without invoking the wrapped function, or the function ran and its result
(success value or thrown error) is propagated. -/
inductive CBOutcome (V : Type) where
  | rejected
  | succeeded (v : V)
  | failed (e : String)
deriving DecidableEq, Repr

/-- Shared tail of `execute`: run the wrapped function and record the
result. The wrapped `fn` is modelled by its (settled) outcome. -/
def runFn {V : Type} (cb : CircuitBreaker) (now : Nat) (fn : Except String V) :
    CircuitBreaker × CBOutcome V :=
  match fn with
  | .ok v => (onSuccess cb, .succeeded v)
  | .error e => (onFailure cb now e, .failed e)

/-- `CircuitBreaker.execute`, with `Date.now()` passed as `now`. -/
def execute {V : Type} (cb : CircuitBreaker) (now : Nat) (fn : Except String V) :
    CircuitBreaker × CBOutcome V :=
  if cb.state = CircuitState.OPEN then
    if cb.nextAttemptTime ≤ now then
      runFn (transitionTo cb CircuitState.HALF_OPEN) now fn
    else (cb, .rejected)
  else runFn cb now fn

/-- `onFailure` always stores exactly the window-pruned failure list. -/
theorem onFailure_failures (cb : CircuitBreaker) (now : Nat) (e : String) :
    (onFailure cb now e).failures =
      (cb.failures ++ [FailureRecord.mk now e]).filter
        (fun f => decide (now - f.timestamp < cb.config.failureWindow)) := by
  unfold onFailure
  dsimp only
  split
  · split <;> rfl
  · rfl

/-- `runFn` never reports a rejection: it always runs the wrapped function. -/
theorem runFn_ne_rejected {V : Type} (cb : CircuitBreaker) (now : Nat)
    (fn : Except String V) : (runFn cb now fn).2 ≠ CBOutcome.rejected := by
  cases fn <;> simp [runFn]

end CircuitBreaker

open CircuitBreaker in
/-- **C6.** For every circuit breaker: a call to `execute (fn)` while the state
is OPEN and the reset timeout has not elapsed rejects immediately without
invoking `fn`; a call while OPEN after the reset timeout has elapsed
transitions the state to HALF_OPEN and does invoke `fn`; and with
`failureThreshold = 3`, three failures within the failure window transition
CLOSED to OPEN with the next-attempt time set to `now + resetTimeout`. -/
theorem circuitBreaker_open_reject_halfopen_threshold {V : Type} :
    (∀ (cb : CircuitBreaker) (now : Nat) (fn : Except String V),
      cb.state = CircuitState.OPEN → now < cb.nextAttemptTime →
        execute cb now fn = (cb, CBOutcome.rejected)) ∧
    (∀ (cb : CircuitBreaker) (now : Nat) (fn : Except String V),
      cb.state = CircuitState.OPEN → cb.nextAttemptTime ≤ now →
        execute cb now fn = runFn (transitionTo cb CircuitState.HALF_OPEN) now fn ∧
        (execute cb now fn).2 ≠ CBOutcome.rejected) ∧
    (∀ (cb : CircuitBreaker) (t1 t2 t3 : Nat) (e1 e2 e3 : String),
      cb.state = CircuitState.CLOSED → cb.failures = [] →
      cb.config.failureThreshold = 3 →
      t1 ≤ t2 → t2 ≤ t3 → t3 - t1 < cb.config.failureWindow →
      ((execute (V := V) ((execute (V := V) ((execute (V := V) cb t1
          (.error e1)).1) t2 (.error e2)).1) t3 (.error e3)).1).state
            = CircuitState.OPEN ∧
      ((execute (V := V) ((execute (V := V) ((execute (V := V) cb t1
          (.error e1)).1) t2 (.error e2)).1) t3 (.error e3)).1).nextAttemptTime
            = t3 + cb.config.resetTimeout) := by
  refine ⟨?_, ?_, ?_⟩
  · intro cb now fn hs hlt
    simp [execute, hs, Nat.not_le.mpr hlt]
  · intro cb now fn hs hle
    refine ⟨by simp [execute, hs, hle], ?_⟩
    have h : execute cb now fn = runFn (transitionTo cb CircuitState.HALF_OPEN) now fn := by
      simp [execute, hs, hle]
    rw [h]
    exact runFn_ne_rejected _ _ _
  · intro cb t1 t2 t3 e1 e2 e3 hs hf hthr h12 h23 h31
    have hw : 0 < cb.config.failureWindow := Nat.lt_of_le_of_lt (Nat.zero_le _) h31
    have h21 : t2 - t1 < cb.config.failureWindow :=
      Nat.lt_of_le_of_lt (Nat.sub_le_sub_right h23 t1) h31
    have h32 : t3 - t2 < cb.config.failureWindow :=
      Nat.lt_of_le_of_lt (Nat.sub_le_sub_left h12 t3) h31
    have h1 : (execute (V := V) cb t1 (.error e1)).1
        = { cb with failures := [FailureRecord.mk t1 e1] } := by
      simp [execute, runFn, onFailure, transitionTo, hs, hf, hthr, hw]
    have h2 : (execute (V := V) { cb with failures := [FailureRecord.mk t1 e1] } t2
        (.error e2)).1
        = { cb with failures := [FailureRecord.mk t1 e1, FailureRecord.mk t2 e2] } := by
      simp [execute, runFn, onFailure, transitionTo, hs, hthr, hw, h21]
    have h3 : (execute (V := V)
        { cb with failures := [FailureRecord.mk t1 e1, FailureRecord.mk t2 e2] } t3
        (.error e3)).1
        = { cb with
            state := CircuitState.OPEN,
            failures := [FailureRecord.mk t1 e1, FailureRecord.mk t2 e2,
              FailureRecord.mk t3 e3],
            successes := 0,
            nextAttemptTime := t3 + cb.config.resetTimeout } := by
      simp [execute, runFn, onFailure, transitionTo, hs, hthr, hw, h21, h31, h32]
    rw [h1, h2, h3]
    exact ⟨rfl, rfl⟩

/-- Witness for C6 at a concrete breaker: threshold 3, reset timeout 1000,
window 10000; failures at times 0, 100, 200; the opened breaker rejects at
time 300 and admits (HALF_OPEN) at time 1200. -/
theorem circuitBreaker_open_reject_halfopen_threshold_witness :
    (CircuitBreaker.execute (V := Nat)
      { config := ⟨3, 2, 1000, 10000⟩, state := CircuitState.OPEN, failures := [],
        successes := 0, nextAttemptTime := 1200 } 300 (.ok 7)
      = ({ config := ⟨3, 2, 1000, 10000⟩, state := CircuitState.OPEN, failures := [],
            successes := 0, nextAttemptTime := 1200 },
          CircuitBreaker.CBOutcome.rejected)) ∧
    ((CircuitBreaker.execute (V := Nat)
      { config := ⟨3, 2, 1000, 10000⟩, state := CircuitState.OPEN, failures := [],
        successes := 0, nextAttemptTime := 1200 } 1200 (.ok 7)).2
        ≠ CircuitBreaker.CBOutcome.rejected) ∧
    (((CircuitBreaker.execute (V := Nat) ((CircuitBreaker.execute (V := Nat)
        ((CircuitBreaker.execute (V := Nat)
          { config := ⟨3, 2, 1000, 10000⟩, state := CircuitState.CLOSED, failures := [],
            successes := 0, nextAttemptTime := 0 } 0
          (.error "e1")).1) 100 (.error "e2")).1) 200 (.error "e3")).1).state
            = CircuitState.OPEN) := by
  refine ⟨?_, ?_, ?_⟩
  · exact (circuitBreaker_open_reject_halfopen_threshold (V := Nat)).1 _ 300 _ rfl
      (by decide)
  · exact ((circuitBreaker_open_reject_halfopen_threshold (V := Nat)).2.1 _ 1200 _ rfl
      (by decide)).2
  · exact ((circuitBreaker_open_reject_halfopen_threshold (V := Nat)).2.2 _ 0 100 200
      "e1" "e2" "e3" rfl rfl rfl (by decide) (by decide) (by decide)).1

/-- **C9, counterexample.** The stored failure list is pruned only inside
`onFailure`; between operations records simply age. Starting from a fresh
breaker (window 10000 ms), one failing `execute` at time 0 leaves a record
with timestamp 0 in the list, and at current time 10000 that record is no
longer within the window: the claimed always-invariant is false. -/
theorem circuitBreaker_window_invariant_counterexample :
    ∃ r, r ∈ ((CircuitBreaker.execute (V := Nat)
        { config := ⟨3, 2, 1000, 10000⟩, state := CircuitState.CLOSED, failures := [],
          successes := 0, nextAttemptTime := 0 } 0 (.error "boom")).1).failures ∧
      ¬ (10000 - r.timestamp <
          ((CircuitBreaker.execute (V := Nat)
            { config := ⟨3, 2, 1000, 10000⟩, state := CircuitState.CLOSED, failures := [],
              successes := 0, nextAttemptTime := 0 } 0
            (.error "boom")).1).config.failureWindow) := by
  refine ⟨FailureRecord.mk 0 "boom", by decide, by decide⟩

/-- **C9, amended.** Immediately after each failure-recording operation
(`onFailure` at time `now`), every stored failure record `r` satisfies
`now - r.timestamp < failureWindow`; the list is pruned only at those
moments, so at later times records may be older than the window. -/
theorem circuitBreaker_window_invariant_after_onFailure
    (cb : CircuitBreaker) (now : Nat) (e : String) (r : FailureRecord)
    (hr : r ∈ (CircuitBreaker.onFailure cb now e).failures) :
    now - r.timestamp < cb.config.failureWindow := by
  rw [CircuitBreaker.onFailure_failures] at hr
  have := List.of_mem_filter hr
  simpa using this

/-- Witness for the amended C9 at a concrete breaker and failure time. -/
theorem circuitBreaker_window_invariant_after_onFailure_witness :
    5 - (FailureRecord.mk 5 "x").timestamp
      < (CircuitBreakerConfig.mk 3 2 1000 10000).failureWindow :=
  circuitBreaker_window_invariant_after_onFailure
    { config := ⟨3, 2, 1000, 10000⟩, state := CircuitState.CLOSED, failures := [],
      successes := 0, nextAttemptTime := 0 } 5 "x" (FailureRecord.mk 5 "x") (by decide)

/-! ## Retry policy (`src/error-handling/RetryPolicy.ts`) -/

/-- A JavaScript `Error` as far as the retry logic observes it: its `name`
and `message`. -/
structure ErrInfo where
  name : String
  message : String
deriving DecidableEq, Repr

/-- `RetryConfig`. JavaScript numbers are modelled as rationals; the
`onRetry` observer is omitted (no effect on the data flow). -/
structure RetryConfig where
  maxAttempts : Nat
  initialDelay : ℚ
  maxDelay : ℚ
  backoffMultiplier : ℚ
  useJitter : Bool
  retryCondition : Option (ErrInfo → Nat → Bool) := none

namespace RetryPolicy

/-- `calculateDelay`, with `Math.random()` passed as `rand ∈ [0, 1)`;
`Math.floor` is `Int.floor`. -/
def calculateDelay (c : RetryConfig) (attempt : Nat) (rand : ℚ) : ℤ :=
  let delay := c.initialDelay * c.backoffMultiplier ^ attempt
  let delay := min delay c.maxDelay
  let delay :=
    if c.useJitter then delay - delay * (1/4) + rand * (delay * (1/4)) * 2 else delay
  ⌊delay⌋

/-- `shouldRetry`. -/
def shouldRetry (c : RetryConfig) (e : ErrInfo) (attempt : Nat) : Bool :=
  match c.retryCondition with
  | some f => f e attempt
  | none =>
    !(["ValidationError", "AuthenticationError", "AuthorizationError"].contains e.name)

/-- The retry loop of `RetryPolicy.execute`. The wrapped function is
modelled by the outcome of each attempt (`fn attempt`), `Math.random()` by
`rand attempt`. Returns the settled result together with the list of
delays slept between attempts, in order. `k` is the number of loop
iterations left (`maxAttempts - attempt`), `lastError` the last caught
error (the `lastError!` throw after the loop can only be reached with
`maxAttempts = 0`, where it rethrows the JavaScript `undefined`). -/
def executeAux {V : Type} (c : RetryConfig) (fn : Nat → Except ErrInfo V)
    (rand : Nat → ℚ) : Nat → Nat → Option ErrInfo → Except ErrInfo V × List ℤ
  | _, 0, lastError =>
    (.error (lastError.getD (ErrInfo.mk "TypeError" "lastError is undefined")), [])
  | attempt, k + 1, _ =>
    match fn attempt with
    | .ok v => (.ok v, [])
    | .error e =>
      if shouldRetry c e attempt = false ∨ attempt = c.maxAttempts - 1 then
        (.error (ErrInfo.mk "Error"
          ("Failed after " ++ toString (attempt + 1) ++ " attempt(s): " ++ e.message)), [])
      else
        let d := calculateDelay c attempt (rand attempt)
        let rest := executeAux c fn rand (attempt + 1) k (some e)
        (rest.1, d :: rest.2)

/-- `RetryPolicy.execute`. -/
def execute {V : Type} (c : RetryConfig) (fn : Nat → Except ErrInfo V)
    (rand : Nat → ℚ) : Except ErrInfo V × List ℤ :=
  executeAux c fn rand 0 c.maxAttempts none

end RetryPolicy

/-- The delay formula exactly as the specification states it (no flooring):
`min(initialDelay × backoffMultiplier^k, maxDelay)`. -/
def specRetryDelay (c : RetryConfig) (k : Nat) : ℚ :=
  min (c.initialDelay * c.backoffMultiplier ^ k) c.maxDelay

/-- **C7, counterexample.** The code floors the computed delay
(`Math.floor`), so for `initialDelay = 1`, `backoffMultiplier = 3/2`,
no jitter, attempt `k = 1` the actual delay is `1`, not the claimed
`min(1 × (3/2)^1, 30000) = 3/2`. -/
theorem retryDelay_counterexample :
    ((RetryPolicy.calculateDelay
        { maxAttempts := 3, initialDelay := 1, maxDelay := 30000,
          backoffMultiplier := 3/2, useJitter := false } 1 0 : ℤ) : ℚ)
      ≠ specRetryDelay
        { maxAttempts := 3, initialDelay := 1, maxDelay := 30000,
          backoffMultiplier := 3/2, useJitter := false } 1 := by
  norm_num [RetryPolicy.calculateDelay, specRetryDelay]

/-- **C7, amended.** For every retry policy and every 0-based attempt `k`
followed by a further attempt, the slept delay is
`⌊min(initialDelay × backoffMultiplier^k, maxDelay)⌋` (the code floors the
value); with jitter enabled the pre-floor value is drawn from
`[0.75·d, 1.25·d)` for `d = min(initialDelay × backoffMultiplier^k,
maxDelay)`, so the floored delay lies in `(0.75·d - 1, 1.25·d]`. With
`maxAttempts = 3, initialDelay = 100, multiplier = 2`, no jitter, two
failures followed by a success return the success value with inter-attempt
delays 100 ms then 200 ms. -/
theorem retryPolicy_backoff_delays_and_run :
    (∀ (c : RetryConfig) (k : Nat) (r : ℚ), c.useJitter = false →
      RetryPolicy.calculateDelay c k r = ⌊specRetryDelay c k⌋) ∧
    (∀ (c : RetryConfig) (k : Nat) (r : ℚ), c.useJitter = true →
      0 ≤ r → r < 1 → 0 ≤ c.initialDelay → 0 ≤ c.backoffMultiplier → 0 ≤ c.maxDelay →
      (3/4 : ℚ) * specRetryDelay c k - 1 < (RetryPolicy.calculateDelay c k r : ℚ) ∧
      (RetryPolicy.calculateDelay c k r : ℚ) ≤ (5/4 : ℚ) * specRetryDelay c k) ∧
    (RetryPolicy.execute
        { maxAttempts := 3, initialDelay := 100, maxDelay := 30000,
          backoffMultiplier := 2, useJitter := false }
        (fun a => if a < 2 then .error (ErrInfo.mk "Error" "boom") else .ok (42 : Nat))
        (fun _ => 0)
      = (.ok 42, [100, 200])) := by
  refine ⟨?_, ?_, ?_⟩
  · intro c k r hj
    simp [RetryPolicy.calculateDelay, hj, specRetryDelay]
  · intro c k r hj hr0 hr1 hi hb hm
    have hd0 : 0 ≤ specRetryDelay c k :=
      le_min (mul_nonneg hi (pow_nonneg hb k)) hm
    set d := specRetryDelay c k with hdd
    have hx : RetryPolicy.calculateDelay c k r
        = ⌊d - d * (1/4) + r * (d * (1/4)) * 2⌋ := by
      simp [RetryPolicy.calculateDelay, hj, hdd, specRetryDelay]
    set x : ℚ := d - d * (1/4) + r * (d * (1/4)) * 2 with hxx
    have hrd : r * d ≤ d := mul_le_of_le_one_left hd0 (le_of_lt hr1)
    have hrd0 : 0 ≤ r * d := mul_nonneg hr0 hd0
    have hxlow : (3/4 : ℚ) * d ≤ x := by rw [hxx]; nlinarith
    have hxhigh : x ≤ (5/4 : ℚ) * d := by rw [hxx]; nlinarith
    constructor
    · rw [hx]
      calc (3/4 : ℚ) * d - 1 ≤ x - 1 := by linarith
        _ < (⌊x⌋ : ℚ) := Int.sub_one_lt_floor x
    · rw [hx]
      calc ((⌊x⌋ : ℤ) : ℚ) ≤ x := Int.floor_le x
        _ ≤ (5/4 : ℚ) * d := hxhigh
  · have h1 : ("Error" : String) ≠ "ValidationError" := by decide
    have h2 : ("Error" : String) ≠ "AuthenticationError" := by decide
    have h3 : ("Error" : String) ≠ "AuthorizationError" := by decide
    norm_num [RetryPolicy.execute, RetryPolicy.executeAux, RetryPolicy.shouldRetry,
      RetryPolicy.calculateDelay, h1, h2, h3]

/-- Witness for C7 instantiating both delay formulas at a concrete
configuration: without jitter `calculateDelay` at attempt 2 is
`⌊min(100·2², 30000)⌋ = 400`; with jitter and `rand = 1/2` the delay for
`d = 400` stays within `(299, 500]`. -/
theorem retryPolicy_backoff_delays_and_run_witness :
    (RetryPolicy.calculateDelay
        { maxAttempts := 3, initialDelay := 100, maxDelay := 30000,
          backoffMultiplier := 2, useJitter := false } 2 0
      = ⌊specRetryDelay
          { maxAttempts := 3, initialDelay := 100, maxDelay := 30000,
            backoffMultiplier := 2, useJitter := false } 2⌋) ∧
    ((3/4 : ℚ) * specRetryDelay
          { maxAttempts := 3, initialDelay := 100, maxDelay := 30000,
            backoffMultiplier := 2, useJitter := true } 2 - 1
        < (RetryPolicy.calculateDelay
            { maxAttempts := 3, initialDelay := 100, maxDelay := 30000,
              backoffMultiplier := 2, useJitter := true } 2 (1/2) : ℚ)) := by
  constructor
  · exact retryPolicy_backoff_delays_and_run.1
      { maxAttempts := 3, initialDelay := 100, maxDelay := 30000,
        backoffMultiplier := 2, useJitter := false } 2 0 rfl
  · exact (retryPolicy_backoff_delays_and_run.2.1
      { maxAttempts := 3, initialDelay := 100, maxDelay := 30000,
        backoffMultiplier := 2, useJitter := true } 2 (1/2) rfl
      (by norm_num) (by norm_num) (by norm_num) (by norm_num) (by norm_num)).1

/-! ## Dead letter queue (`src/error-handling/DeadLetterQueue.ts`)

The entry store (a `Map` keyed by generated id) is an association list in
insertion order. The `context`/`result`/`metadata` snapshots carried by an
entry play no role in the queue logic and are omitted; the generated id and
`Date.now()` timestamp are passed explicitly. -/

/-- `DeadLetterEntry` (snapshot fields omitted). -/
structure DeadLetterEntry where
  id : String
  executionId : String
  nodeId : NodeId
  nodeName : String
  error : ErrInfo
  timestamp : Nat
  retryAttempts : Nat
  processed : Bool
deriving DecidableEq, Repr

/-- The queue: its configured capacity and the stored entries in insertion
order (`persistenceHandler`/observers omitted: no effect on the store). -/
structure DLQState where
  maxEntries : Nat
  entries : List DeadLetterEntry
deriving DecidableEq, Repr

/-- The caller-supplied part of `DeadLetterQueue.add`'s params. -/
structure AddParams where
  executionId : String
  nodeId : NodeId
  nodeName : String
  error : ErrInfo
  retryAttempts : Option Nat := none
deriving DecidableEq, Repr

namespace DeadLetterQueue

/-- The entry built inside `add`. -/
def mkEntry (p : AddParams) (newId : String) (now : Nat) : DeadLetterEntry :=
  { id := newId, executionId := p.executionId, nodeId := p.nodeId,
    nodeName := p.nodeName, error := p.error, timestamp := now,
    retryAttempts := p.retryAttempts.getD 0, processed := false }

/-- Stable insertion into a timestamp-ascending list (helper for the stable
`Array.prototype.sort` by `a.timestamp - b.timestamp`). -/
def insertByTs (e : DeadLetterEntry) : List DeadLetterEntry → List DeadLetterEntry
  | [] => [e]
  | x :: xs =>
    if e.timestamp ≤ x.timestamp then e :: x :: xs else x :: insertByTs e xs

/-- Stable sort of the entries by ascending timestamp. -/
def sortByTs : List DeadLetterEntry → List DeadLetterEntry
  | [] => []
  | x :: xs => insertByTs x (sortByTs xs)

/-- The deletion loop of `removeOldest`: delete each listed entry from the
store by id (`Map.delete`; ids are unique, so deleting by id is filtering
that id out). -/
def deleteIds (store : List DeadLetterEntry) (toDelete : List DeadLetterEntry) :
    List DeadLetterEntry :=
  toDelete.foldl (fun es e => es.filter (fun x => decide (x.id ≠ e.id))) store

/-- `removeOldest`: sort all entries by timestamp, delete the first
`length - maxEntries` of them from the store by id. -/
def removeOldest (s : DLQState) : DLQState :=
  let sorted := sortByTs s.entries
  let toRemove := sorted.length - s.maxEntries
  { s with entries := deleteIds s.entries (sorted.take toRemove) }

/-- `add`: append the new entry (`Map.set` with a freshly generated id),
then evict when the store exceeds `maxEntries`. -/
def add (s : DLQState) (p : AddParams) (newId : String) (now : Nat) : DLQState :=
  let entry := mkEntry p newId now
  let s := { s with entries := s.entries ++ [entry] }
  if s.maxEntries < s.entries.length then removeOldest s else s

theorem insertByTs_perm (e : DeadLetterEntry) (l : List DeadLetterEntry) :
    (insertByTs e l).Perm (e :: l) := by
  induction l with
  | nil => simp [insertByTs]
  | cons x xs ih =>
    unfold insertByTs
    split
    · exact List.Perm.refl _
    · exact ((ih.cons x).trans (List.Perm.swap e x xs))

theorem sortByTs_perm (l : List DeadLetterEntry) : (sortByTs l).Perm l := by
  induction l with
  | nil => simp [sortByTs]
  | cons x xs ih => exact (insertByTs_perm x (sortByTs xs)).trans (ih.cons x)

theorem insertByTs_pairwise (e : DeadLetterEntry) (l : List DeadLetterEntry)
    (h : l.Pairwise (fun a b => a.timestamp ≤ b.timestamp)) :
    (insertByTs e l).Pairwise (fun a b => a.timestamp ≤ b.timestamp) := by
  induction l with
  | nil => simp [insertByTs]
  | cons x xs ih =>
    unfold insertByTs
    rcases h with - | ⟨hx, hxs⟩
    split
    · refine List.Pairwise.cons ?_ (List.Pairwise.cons hx hxs)
      intro y hy
      rcases List.mem_cons.mp hy with rfl | hy
      · omega
      · exact le_trans (by omega) (hx y hy)
    · refine List.Pairwise.cons ?_ (ih hxs)
      intro y hy
      rcases List.mem_cons.mp ((insertByTs_perm e xs).mem_iff.mp hy) with rfl | hy
      · omega
      · exact hx y hy

theorem sortByTs_pairwise (l : List DeadLetterEntry) :
    (sortByTs l).Pairwise (fun a b => a.timestamp ≤ b.timestamp) := by
  induction l with
  | nil => simp [sortByTs]
  | cons x xs ih => exact insertByTs_pairwise x (sortByTs xs) ih

/-- Membership in the store after the deletion loop: an entry survives iff
it was in the store and its id is not among the ids marked for deletion. -/
theorem mem_deleteIds (T L : List DeadLetterEntry) (x : DeadLetterEntry) :
    x ∈ deleteIds L T ↔ x ∈ L ∧ ∀ t ∈ T, x.id ≠ t.id := by
  induction T generalizing L with
  | nil => simp [deleteIds]
  | cons t T ih =>
    show x ∈ deleteIds (L.filter fun y => decide (y.id ≠ t.id)) T ↔ _
    rw [ih]
    simp only [List.mem_filter, decide_eq_true_eq, List.mem_cons]
    constructor
    · rintro ⟨⟨hxL, hxt⟩, hT⟩
      refine ⟨hxL, ?_⟩
      rintro u (rfl | hu)
      · exact hxt
      · exact hT u hu
    · rintro ⟨hxL, hall⟩
      exact ⟨⟨hxL, hall t (Or.inl rfl)⟩, fun u hu => hall u (Or.inr hu)⟩

/-- Deleting one entry by id from a store with pairwise-distinct ids drops
exactly one element. -/
theorem filter_ne_id_length (L : List DeadLetterEntry) (t : DeadLetterEntry)
    (hL : (L.map (fun e => e.id)).Nodup) (ht : t ∈ L) :
    (L.filter (fun x => decide (x.id ≠ t.id))).length = L.length - 1 := by
  induction L with
  | nil => cases ht
  | cons x xs ih =>
    rw [List.map_cons, List.nodup_cons] at hL
    rcases List.mem_cons.mp ht with rfl | htxs
    · have hxs : xs.filter (fun y => decide (y.id ≠ t.id)) = xs := by
        apply List.filter_eq_self.mpr
        intro y hy
        simp only [decide_eq_true_eq]
        intro hco
        exact hL.1 (hco ▸ List.mem_map_of_mem (fun e => e.id) hy)
      simp [hxs]
      intro y hy hco
      exact hL.1 (hco ▸ List.mem_map_of_mem (fun e => e.id) hy)
    · have hne : x.id ≠ t.id := by
        intro hco
        exact hL.1 (hco ▸ List.mem_map_of_mem (fun e => e.id) htxs)
      have hpos : 1 ≤ xs.length := List.length_pos.mpr (List.ne_nil_of_mem htxs)
      rw [List.filter_cons_of_pos (by simpa using hne)]
      rw [List.length_cons, ih hL.2 htxs]
      simp only [List.length_cons]
      omega

/-- The deletion loop with pairwise-distinct ids removes exactly the listed
entries. -/
theorem deleteIds_length (T : List DeadLetterEntry) :
    ∀ (L : List DeadLetterEntry), (∀ t ∈ T, t ∈ L) →
    (T.map (fun e => e.id)).Nodup → (L.map (fun e => e.id)).Nodup →
    (deleteIds L T).length = L.length - T.length := by
  induction T with
  | nil => intro L _ _ _; simp [deleteIds]
  | cons t T ih =>
    intro L hsub hTid hLid
    rw [List.map_cons, List.nodup_cons] at hTid
    show (deleteIds (L.filter fun y => decide (y.id ≠ t.id)) T).length = _
    have hstep := filter_ne_id_length L t hLid (hsub t (List.mem_cons_self t T))
    have hfid : ((L.filter fun y => decide (y.id ≠ t.id)).map (fun e => e.id)).Nodup :=
      hLid.sublist (List.Sublist.map _ (List.filter_sublist L))
    have hpos : 1 ≤ L.length :=
      List.length_pos.mpr (List.ne_nil_of_mem (hsub t (List.mem_cons_self t T)))
    have hsub2 : ∀ u ∈ T, u ∈ L.filter fun y => decide (y.id ≠ t.id) := by
      intro u hu
      refine List.mem_filter.mpr ⟨hsub u (List.mem_cons_of_mem t hu), ?_⟩
      simp only [decide_eq_true_eq]
      intro hco
      exact hTid.1 (hco ▸ List.mem_map_of_mem (fun e => e.id) hu)
    rw [ih _ hsub2 hTid.2 hfid, hstep]
    simp only [List.length_cons]
    omega

end DeadLetterQueue

open DeadLetterQueue in
/-- **C8.** For every dead-letter queue configured with capacity
`maxEntries`, after every `add` the store holds at most `maxEntries`
entries, and when eviction is needed the entries with the oldest timestamps
are removed first (every evicted entry is at least as old as every
retained one); with `maxEntries = 2`, adding 3 entries leaves exactly the
2 most recently added. The pairwise-distinct-ids hypothesis reflects the
generated uniqueness of `generateId`. -/
theorem deadLetterQueue_capacity_and_eviction :
    (∀ (s : DLQState) (p : AddParams) (newId : String) (now : Nat),
      ((s.entries ++ [mkEntry p newId now]).map (fun e => e.id)).Nodup →
      (add s p newId now).entries.length ≤ s.maxEntries ∧
      (∀ a b, a ∈ s.entries ++ [mkEntry p newId now] →
        a ∉ (add s p newId now).entries →
        b ∈ (add s p newId now).entries →
        a.timestamp ≤ b.timestamp)) ∧
    ((add (add (add (DLQState.mk 2 [])
        (AddParams.mk "run" "node" "Node" (ErrInfo.mk "Error" "boom") none) "1" 10)
        (AddParams.mk "run" "node" "Node" (ErrInfo.mk "Error" "boom") none) "2" 20)
        (AddParams.mk "run" "node" "Node" (ErrInfo.mk "Error" "boom") none) "3" 30).entries
      = [mkEntry (AddParams.mk "run" "node" "Node" (ErrInfo.mk "Error" "boom") none) "2" 20,
         mkEntry (AddParams.mk "run" "node" "Node" (ErrInfo.mk "Error" "boom") none) "3" 30]) := by
  constructor
  · intro s p newId now hnod
    set L : List DeadLetterEntry := s.entries ++ [mkEntry p newId now] with hLdef
    have hadd : (add s p newId now) =
        if s.maxEntries < L.length then removeOldest (DLQState.mk s.maxEntries L)
        else DLQState.mk s.maxEntries L := by
      simp only [add, hLdef]
    by_cases hcap : s.maxEntries < L.length
    · rw [hadd, if_pos hcap]
      set sorted := sortByTs L with hsorted
      have hperm : sorted.Perm L := sortByTs_perm L
      have hpermid : (sorted.map (fun e => e.id)).Perm (L.map (fun e => e.id)) :=
        hperm.map _
      have hsortednod : (sorted.map (fun e => e.id)).Nodup :=
        (hpermid.nodup_iff).mpr hnod
      have hlen : sorted.length = L.length := hperm.length_eq
      set k := sorted.length - s.maxEntries with hk
      set T := sorted.take k with hT
      have hTsub : ∀ t ∈ T, t ∈ L := fun t ht => hperm.subset (List.take_subset k sorted ht)
      have hTid : (T.map (fun e => e.id)).Nodup :=
        hsortednod.sublist (List.Sublist.map _ (List.take_sublist k sorted))
      have hrm : (removeOldest (DLQState.mk s.maxEntries L)).entries = deleteIds L T := rfl
      have hlength := deleteIds_length T L hTsub hTid hnod
      have hTlen : T.length = k := by
        rw [hT, List.length_take]
        omega
      constructor
      · rw [hrm] at *
        rw [hlength, hTlen, hk, hlen]
        omega
      · intro a b haL hanot hbmem
        rw [hrm] at hanot hbmem
        have hb := (mem_deleteIds T L b).mp hbmem
        have ha : ∃ t ∈ T, a.id = t.id := by
          by_contra hcon
          push_neg at hcon
          exact hanot ((mem_deleteIds T L a).mpr ⟨haL, hcon⟩)
        obtain ⟨t, htT, haid⟩ := ha
        have haT : a ∈ T := by
          have : a = t :=
            List.inj_on_of_nodup_map hnod haL (hTsub t htT) haid
          rwa [this]
        have hbnotT : b ∉ T := by
          intro hco
          exact hb.2 b hco rfl
        have hbsorted : b ∈ sorted := hperm.mem_iff.mpr hb.1
        have hbdrop : b ∈ sorted.drop k := by
          rcases List.mem_append.mp
            ((List.take_append_drop k sorted) ▸ hbsorted) with h | h
          · exact absurd h hbnotT
          · exact h
        have hpw := sortByTs_pairwise L
        rw [← hsorted, ← List.take_append_drop k sorted] at hpw
        have := (List.pairwise_append.mp hpw).2.2
        exact this a haT b hbdrop
    · rw [hadd, if_neg hcap]
      refine ⟨by simpa using Nat.le_of_not_lt hcap, ?_⟩
      intro a b haL hanot _
      exact absurd haL hanot
  · decide

/-- Witness for C8: one `add` on a queue with capacity 2 holding one entry
keeps both entries and evicts nothing. -/
theorem deadLetterQueue_capacity_and_eviction_witness :
    (DeadLetterQueue.add
        (DLQState.mk 2 [DeadLetterQueue.mkEntry
          (AddParams.mk "r" "n" "N" (ErrInfo.mk "Error" "x") none) "a" 5])
        (AddParams.mk "r" "n" "N" (ErrInfo.mk "Error" "x") none) "b" 6).entries.length
      ≤ 2 :=
  (deadLetterQueue_capacity_and_eviction.1
    (DLQState.mk 2 [DeadLetterQueue.mkEntry
      (AddParams.mk "r" "n" "N" (ErrInfo.mk "Error" "x") none) "a" 5])
    (AddParams.mk "r" "n" "N" (ErrInfo.mk "Error" "x") none) "b" 6 (by decide)).1

/-! ## Association-list model of JavaScript `Map` -/

/-- `Map.get`. -/
def lookupA {κ α : Type} [DecidableEq κ] : List (κ × α) → κ → Option α
  | [], _ => none
  | (k1, v) :: rest, k => if k1 = k then some v else lookupA rest k

/-- `Map.set`: replace in place when the key is present (a JavaScript `Map`
keeps the original insertion position), append otherwise. -/
def setA {κ α : Type} [DecidableEq κ] (m : List (κ × α)) (k : κ) (v : α) :
    List (κ × α) :=
  if m.any (fun p => decide (p.1 = k)) then
    m.map (fun p => if p.1 = k then (k, v) else p)
  else m ++ [(k, v)]

theorem setA_cons_pos {κ α : Type} [DecidableEq κ]
    (p : κ × α) (rest : List (κ × α)) (k : κ) (v : α) (hp : p.1 = k) :
    setA (p :: rest) k v
      = (k, v) :: rest.map (fun q => if q.1 = k then (k, v) else q) := by
  simp [setA, hp]

theorem setA_cons_neg {κ α : Type} [DecidableEq κ]
    (p : κ × α) (rest : List (κ × α)) (k : κ) (v : α) (hp : ¬ p.1 = k) :
    setA (p :: rest) k v = p :: setA rest k v := by
  by_cases hr : (rest.any fun q => decide (q.1 = k)) = true
  · have hall : ((p :: rest).any fun q => decide (q.1 = k)) = true := by
      simp [List.any_cons, hr]
    rw [setA, if_pos hall, setA, if_pos hr, List.map_cons, if_neg hp]
  · have hall : ¬ ((p :: rest).any fun q => decide (q.1 = k)) = true := by
      simpa [List.any_cons, hp] using hr
    rw [setA, if_neg hall, setA, if_neg hr, List.cons_append]

theorem lookupA_setA_self {κ α : Type} [DecidableEq κ]
    (m : List (κ × α)) (k : κ) (v : α) : lookupA (setA m k v) k = some v := by
  induction m with
  | nil => simp [setA, lookupA]
  | cons p rest ih =>
    by_cases hp : p.1 = k
    · rw [setA_cons_pos p rest k v hp]
      simp [lookupA]
    · rw [setA_cons_neg p rest k v hp]
      simp only [lookupA, if_neg hp]
      exact ih

theorem lookupA_map_replace_ne {κ α : Type} [DecidableEq κ]
    (rest : List (κ × α)) (k k2 : κ) (v : α) (hne : k2 ≠ k) :
    lookupA (rest.map (fun q => if q.1 = k then (k, v) else q)) k2
      = lookupA rest k2 := by
  induction rest with
  | nil => rfl
  | cons q qs ih =>
    by_cases hq : q.1 = k
    · rw [List.map_cons, if_pos hq]
      simp only [lookupA]
      rw [if_neg (fun h => hne h.symm), if_neg (fun h : q.1 = k2 => hne (hq.symm.trans h).symm)]
      exact ih
    · rw [List.map_cons, if_neg hq]
      simp only [lookupA]
      split
      · rfl
      · exact ih

theorem lookupA_setA_ne {κ α : Type} [DecidableEq κ]
    (m : List (κ × α)) (k k2 : κ) (v : α) (hne : k2 ≠ k) :
    lookupA (setA m k v) k2 = lookupA m k2 := by
  induction m with
  | nil =>
    show lookupA (setA ([] : List (κ × α)) k v) k2 = none
    rw [setA]
    simp only [List.any_nil, Bool.false_eq_true, if_false, List.nil_append, lookupA]
    rw [if_neg (fun h => hne h.symm)]
  | cons p rest ih =>
    by_cases hp : p.1 = k
    · rw [setA_cons_pos p rest k v hp]
      simp only [lookupA]
      rw [if_neg (fun h => hne h.symm), lookupA_map_replace_ne rest k k2 v hne,
        if_neg (fun h : p.1 = k2 => hne (hp.symm.trans h).symm)]
    · rw [setA_cons_neg p rest k v hp]
      simp only [lookupA]
      split
      · rfl
      · exact ih

theorem lookupA_append {κ α : Type} [DecidableEq κ] (a b : List (κ × α)) (k : κ) :
    lookupA (a ++ b) k = (lookupA a k).orElse (fun _ => lookupA b k) := by
  induction a with
  | nil => simp [lookupA]
  | cons p rest ih =>
    simp only [List.cons_append, lookupA]
    split
    · rfl
    · exact ih

theorem lookupA_eq_some_iff_mem {κ α : Type} [DecidableEq κ]
    (m : List (κ × α)) (hnod : (m.map Prod.fst).Nodup) (k : κ) (v : α) :
    lookupA m k = some v ↔ (k, v) ∈ m := by
  induction m with
  | nil => simp [lookupA]
  | cons p rest ih =>
    rw [List.map_cons, List.nodup_cons] at hnod
    simp only [lookupA, List.mem_cons]
    split
    · rename_i hp
      subst hp
      constructor
      · rintro h
        exact Or.inl (by cases p with | mk a b => simpa using h.symm)
      · rintro (h | h)
        · cases p with | mk a b => simp at h; simp [h]
        · exact absurd (List.mem_map_of_mem Prod.fst h) (by simpa using hnod.1)
    · rename_i hp
      rw [ih hnod.2]
      constructor
      · exact Or.inr
      · rintro (h | h)
        · exact absurd (congrArg Prod.fst h).symm (by simpa using hp)
        · exact h

theorem lookupA_eq_none_iff {κ α : Type} [DecidableEq κ]
    (m : List (κ × α)) (k : κ) :
    lookupA m k = none ↔ k ∉ m.map Prod.fst := by
  induction m with
  | nil => simp [lookupA]
  | cons p rest ih =>
    simp only [lookupA, List.map_cons, List.mem_cons]
    split
    · rename_i hp
      simp [hp]
    · rename_i hp
      rw [ih]
      simp only [not_or]
      constructor
      · intro h
        exact ⟨fun hco => hp hco.symm, h⟩
      · exact fun h => h.2

theorem lookupA_reverse {κ α : Type} [DecidableEq κ]
    (m : List (κ × α)) (hnod : (m.map Prod.fst).Nodup) (k : κ) :
    lookupA m.reverse k = lookupA m k := by
  have hrev : (m.reverse.map Prod.fst).Nodup := by
    rw [List.map_reverse]
    exact List.nodup_reverse.mpr hnod
  cases h : lookupA m k with
  | some v =>
    rw [lookupA_eq_some_iff_mem m hnod k v] at h
    exact (lookupA_eq_some_iff_mem m.reverse hrev k v).mpr (List.mem_reverse.mpr h)
  | none =>
    rw [lookupA_eq_none_iff] at h
    refine (lookupA_eq_none_iff m.reverse k).mpr ?_
    rw [List.map_reverse, List.mem_reverse]
    exact h

/-! ## Node data model (`src/types/index.ts`) -/

/-- `DataType`: name plus optional value validator (values of type `V`). -/
structure DataType (V : Type) where
  name : String
  validator : Option (V → Bool) := none

/-- `Port`. `required?: boolean` defaults to `undefined`, which is falsy. -/
structure Port (V : Type) where
  id : PortId
  name : String
  dataType : DataType V
  required : Bool := false

/-- A thrown JavaScript value as observed by the contract layer: a
`NodeError` instance, some other `Error` instance (name and message), or a
non-`Error` value (its string rendering). -/
inductive Thrown where
  | nodeError (message : String) (nodeId : NodeId) (portId : Option PortId)
      (originalError : Option ErrInfo)
  | jsError (e : ErrInfo)
  | nonError (s : String)
deriving DecidableEq, Repr

/-- `NodeError` as stored in a failed `ExecutionResult` (the optional
`originalError` cause is kept as the thrown error's name and message). -/
structure NodeError where
  message : String
  nodeId : NodeId
  portId : Option PortId := none
  originalError : Option ErrInfo := none
deriving DecidableEq, Repr

/-- `ExecutionResult`: all of `outputs`, `error`, `executionTime` are
optional in the TypeScript interface. -/
structure ExecutionResult (V : Type) where
  success : Bool
  outputs : Option (List (PortId × V)) := none
  error : Option NodeError := none
  executionTime : Option Nat := none
deriving DecidableEq, Repr

/-- `ExecutionContext`. The `errorHandler` failure sink is a write-only
observer with no influence on any result and is not modelled. -/
structure ExecutionContext (V : Type) where
  executionId : String
  inputs : List (PortId × V)
  outputs : List (PortId × V) := []
  metadata : List (String × V) := []

/-! ## Base node (`src/core/BaseNode.ts`) -/

/-- `BaseNode`: the abstract `executeInternal` is the node-specific logic,
returning outputs or throwing. -/
structure BaseNode (V : Type) where
  id : NodeId
  name : String
  description : Option String := none
  inputs : List (Port V)
  outputs : List (Port V)
  executeInternal : ExecutionContext V → Except Thrown (List (PortId × V))

namespace BaseNode

/-- `validateInputs`: for each input port in order, a required port whose
value is missing, or a present value rejected by the port datatype's
validator, throws a port-scoped `NodeError`. -/
def validateInputsAux {V : Type} (nid : NodeId) (inputs : List (PortId × V)) :
    List (Port V) → Except Thrown Unit
  | [] => .ok ()
  | port :: rest =>
    if port.required = true ∧ (lookupA inputs port.id).isNone = true then
      .error (.nodeError
        ("Required input " ++ port.name ++ " (" ++ port.id ++ ") is missing")
        nid (some port.id) none)
    else
      match lookupA inputs port.id, port.dataType.validator with
      | some v, some f =>
        if f v = false then
          .error (.nodeError
            ("Input " ++ port.name ++ " (" ++ port.id ++ ") has invalid type. Expected "
              ++ port.dataType.name)
            nid (some port.id) none)
        else validateInputsAux nid inputs rest
      | _, _ => validateInputsAux nid inputs rest

/-- `validateOutputs`: like `validateInputsAux` but with no required check. -/
def validateOutputsAux {V : Type} (nid : NodeId) (outputs : List (PortId × V)) :
    List (Port V) → Except Thrown Unit
  | [] => .ok ()
  | port :: rest =>
    match lookupA outputs port.id, port.dataType.validator with
    | some v, some f =>
      if f v = false then
        .error (.nodeError
          ("Output " ++ port.name ++ " (" ++ port.id ++ ") has invalid type. Expected "
            ++ port.dataType.name)
          nid (some port.id) none)
      else validateOutputsAux nid outputs rest
    | _, _ => validateOutputsAux nid outputs rest

/-- The error normalization in `execute`'s catch block: a thrown
`NodeError` is kept as is; any other thrown value is wrapped into a
`NodeError` for this node, an `Error` instance becoming the cause. -/
def normalizeThrown (nid : NodeId) : Thrown → NodeError
  | .nodeError m n p o => ⟨m, n, p, o⟩
  | .jsError e => ⟨e.message, nid, none, some e⟩
  | .nonError s => ⟨s, nid, none, none⟩

/-- The `try` block of `BaseNode.execute`: validate inputs, run the
node-specific logic, validate outputs. -/
def attempt {V : Type} (node : BaseNode V) (ctx : ExecutionContext V) :
    Except Thrown (List (PortId × V)) := do
  validateInputsAux node.id ctx.inputs node.inputs
  let outs ← node.executeInternal ctx
  validateOutputsAux node.id outs node.outputs
  pure outs

/-- `BaseNode.execute`. It is a total function into `ExecutionResult`
(nothing is raised); `dur` is the measured elapsed time. -/
def execute {V : Type} (node : BaseNode V) (ctx : ExecutionContext V)
    (dur : Nat) : ExecutionResult V :=
  match attempt node ctx with
  | .ok outs => { success := true, outputs := some outs, executionTime := some dur }
  | .error e =>
    { success := false, error := some (normalizeThrown node.id e),
      executionTime := some dur }

/-- `BaseNode.validate`: no duplicate port ids among inputs and outputs,
and every port has a truthy (non-empty) id and name (`dataType` is always
present in the typed model). -/
def validate {V : Type} (node : BaseNode V) : Bool :=
  decide (((node.inputs ++ node.outputs).map (fun p => p.id)).Nodup)
    && (node.inputs ++ node.outputs).all
        (fun p => !(decide (p.id = "")) && !(decide (p.name = "")))

end BaseNode

/-- **C3.** For every node built on the base contract and every execution
context, `execute` does not raise for ordinary failures (in the embedding
it is a total function into `ExecutionResult`): whenever the composite of
input validation, the node-specific logic and output validation fails —
and the context's failure sink, being a pure observer here, does not
raise — `execute` returns `success := false` together with the failure
normalized into a `NodeError` (message, nodeId, optional portId, cause)
and the elapsed `executionTime`; moreover it fails exactly when that
composite fails. -/
theorem baseNode_execute_never_raises_and_normalizes {V : Type}
    (node : BaseNode V) (ctx : ExecutionContext V) (dur : Nat) :
    ((node.execute ctx dur).success = false ↔
      ∃ e, BaseNode.attempt node ctx = .error e) ∧
    (∀ e, BaseNode.attempt node ctx = .error e →
      node.execute ctx dur =
        { success := false, outputs := none,
          error := some (BaseNode.normalizeThrown node.id e),
          executionTime := some dur }) := by
  constructor
  · unfold BaseNode.execute
    cases h : BaseNode.attempt node ctx with
    | ok outs => simp
    | error e => simp
  · intro e he
    unfold BaseNode.execute
    rw [he]

/-- Witness for C3: a node whose internal logic throws a plain `Error`
yields the normalized failed result. -/
theorem baseNode_execute_never_raises_and_normalizes_witness :
    BaseNode.execute (V := Nat)
      { id := "n1", name := "N", inputs := [], outputs := [],
        executeInternal := fun _ => .error (.jsError (ErrInfo.mk "Error" "boom")) }
      { executionId := "x", inputs := [] } 7
      = { success := false, outputs := none,
          error := some (NodeError.mk "boom" "n1" none (some (ErrInfo.mk "Error" "boom"))),
          executionTime := some 7 } :=
  (baseNode_execute_never_raises_and_normalizes
      { id := "n1", name := "N", inputs := [], outputs := [],
        executeInternal := fun _ => .error (.jsError (ErrInfo.mk "Error" "boom")) }
      { executionId := "x", inputs := [] } 7).2
    (.jsError (ErrInfo.mk "Error" "boom")) rfl

/-! ## Error-handling node (`src/error-handling/ErrorHandling.ts`) -/

/-- The `error instanceof Error ? error : new Error(String(error))`
conversion used when handing a thrown value to the fallback function
(`NodeError extends Error` with name `NodeError`). -/
def thrownToError : Thrown → ErrInfo
  | .nodeError m _ _ _ => ⟨"NodeError", m⟩
  | .jsError e => e
  | .nonError s => ⟨"Error", s⟩

/-- `ErrorHandlingConfig`. The optional `retryPolicy` and `circuitBreaker`
components are modelled as absent (`executeFn` then reduces to
`executeInternal` run once); the claims below only assume that the wrapped
execution fails, however it is composed. -/
structure ErrorHandlingConfig (V : Type) where
  enableDLQ : Bool := false
  suppressErrors : Bool := false
  fallbackFn : Option (ErrInfo → ExecutionContext V → Except Thrown (List (PortId × V))) := none

/-- `ErrorHandlingNode extends BaseNode` with an `errorConfig`. -/
structure ErrorHandlingNode (V : Type) where
  toBaseNode : BaseNode V
  errorConfig : ErrorHandlingConfig V

namespace ErrorHandlingNode

/-- `executeWithErrorHandling`: run the wrapped execution (here a single
attempt of `executeInternal`, cf. `ErrorHandlingConfig`); on error invoke
the fallback if configured, otherwise rethrow. -/
def executeWithErrorHandling {V : Type} (node : ErrorHandlingNode V)
    (ctx : ExecutionContext V) : Except Thrown (List (PortId × V)) :=
  match node.toBaseNode.executeInternal ctx with
  | .ok outs => .ok outs
  | .error e =>
    match node.errorConfig.fallbackFn with
    | some fb => fb (thrownToError e) ctx
    | none => .error e

/-- The `try` block of `ErrorHandlingNode.execute`. -/
def attempt {V : Type} (node : ErrorHandlingNode V) (ctx : ExecutionContext V) :
    Except Thrown (List (PortId × V)) := do
  BaseNode.validateInputsAux node.toBaseNode.id ctx.inputs node.toBaseNode.inputs
  let outs ← executeWithErrorHandling node ctx
  BaseNode.validateOutputsAux node.toBaseNode.id outs node.toBaseNode.outputs
  pure outs

/-- `ErrorHandlingNode.execute` (overrides `BaseNode.execute`). The DLQ
write and the context failure sink are external side effects with no
influence on the returned result and are not modelled. -/
def execute {V : Type} (node : ErrorHandlingNode V) (ctx : ExecutionContext V)
    (dur : Nat) : ExecutionResult V :=
  match attempt node ctx with
  | .ok outs => { success := true, outputs := some outs, executionTime := some dur }
  | .error e =>
    let nodeError := BaseNode.normalizeThrown node.toBaseNode.id e
    if node.errorConfig.suppressErrors = true then
      { success := false, outputs := some [], error := some nodeError,
        executionTime := some dur }
    else
      { success := false, error := some nodeError, executionTime := some dur }

end ErrorHandlingNode

/-- **C5, counterexample.** A suppress-errors node whose wrapped execution
fails returns a result that *does* carry failure indicators: `success` is
`false` and the `NodeError` is present — alongside the empty output map.
So `execute` does not return "an empty output map instead of any failure
indicator". -/
theorem errorHandlingNode_suppress_counterexample :
    ((ErrorHandlingNode.execute (V := Nat)
        { toBaseNode :=
            { id := "n1", name := "N", inputs := [], outputs := [],
              executeInternal := fun _ => .error (.jsError (ErrInfo.mk "Error" "boom")) },
          errorConfig := { suppressErrors := true } }
        { executionId := "x", inputs := [] } 7).success = false) ∧
    ((ErrorHandlingNode.execute (V := Nat)
        { toBaseNode :=
            { id := "n1", name := "N", inputs := [], outputs := [],
              executeInternal := fun _ => .error (.jsError (ErrInfo.mk "Error" "boom")) },
          errorConfig := { suppressErrors := true } }
        { executionId := "x", inputs := [] } 7).error
      = some (NodeError.mk "boom" "n1" none (some (ErrInfo.mk "Error" "boom")))) ∧
    ((ErrorHandlingNode.execute (V := Nat)
        { toBaseNode :=
            { id := "n1", name := "N", inputs := [], outputs := [],
              executeInternal := fun _ => .error (.jsError (ErrInfo.mk "Error" "boom")) },
          errorConfig := { suppressErrors := true } }
        { executionId := "x", inputs := [] } 7).outputs = some []) := by
  refine ⟨rfl, rfl, rfl⟩

/-- **C5, amended.** For every error-handling node with the
suppress-errors flag and every context on which its wrapped execution
fails (inputs validating), `execute` returns the failed result *augmented
with an empty output map*: `success := false`, the normalized error, the
execution time, and `outputs := some ∅` — the flag only adds the empty
output map, it does not remove the failure indicators. -/
theorem errorHandlingNode_suppress_adds_empty_outputs {V : Type}
    (node : ErrorHandlingNode V) (ctx : ExecutionContext V) (dur : Nat)
    (e : Thrown)
    (hsup : node.errorConfig.suppressErrors = true)
    (hval : BaseNode.validateInputsAux node.toBaseNode.id ctx.inputs
      node.toBaseNode.inputs = .ok ())
    (hfail : ErrorHandlingNode.executeWithErrorHandling node ctx = .error e) :
    ErrorHandlingNode.execute node ctx dur =
      { success := false, outputs := some [],
        error := some (BaseNode.normalizeThrown node.toBaseNode.id e),
        executionTime := some dur } := by
  have hatt : ErrorHandlingNode.attempt node ctx = .error e := by
    unfold ErrorHandlingNode.attempt
    rw [hval, hfail]
    rfl
  unfold ErrorHandlingNode.execute
  rw [hatt]
  simp [hsup]

/-- Witness for the amended C5 at the concrete suppressing node. -/
theorem errorHandlingNode_suppress_adds_empty_outputs_witness :
    ErrorHandlingNode.execute (V := Nat)
      { toBaseNode :=
          { id := "n2", name := "N", inputs := [], outputs := [],
            executeInternal := fun _ => .error (.nonError "bad") },
        errorConfig := { suppressErrors := true } }
      { executionId := "y", inputs := [] } 3
      = { success := false, outputs := some [],
          error := some (NodeError.mk "bad" "n2" none none),
          executionTime := some 3 } :=
  errorHandlingNode_suppress_adds_empty_outputs
    { toBaseNode :=
        { id := "n2", name := "N", inputs := [], outputs := [],
          executeInternal := fun _ => .error (.nonError "bad") },
      errorConfig := { suppressErrors := true } }
    { executionId := "y", inputs := [] } 3 (.nonError "bad") rfl rfl rfl

/-! ## Node executor (`src/core/NodeExecutor.ts`) -/

/-- The executor's owned collections: `nodes` is the `Map<NodeId, INode>`
in insertion order (nodes embedded as `BaseNode`), `connections` the
values of the `Map<string, Connection>` keyed by `conn.id`, in insertion
order. -/
structure Executor (V : Type) where
  nodes : List (NodeId × BaseNode V)
  connections : List Connection

namespace NodeExecutor

/-- `addNode`: throws when the node fails validation, otherwise
`Map.set(node.id, node)` (event emission omitted). -/
def addNode {V : Type} (ex : Executor V) (node : BaseNode V) :
    Except String (Executor V) :=
  if node.validate = false then
    .error ("Node " ++ node.id ++ " failed validation")
  else
    .ok { ex with nodes := setA ex.nodes node.id node }

/-- The body of `gatherNodeInputs`' connection loop: if the source
result is present, successful and has an output map defining `fromPort`,
set that value at `toPort`. -/
def gatherStep {V : Type} (executionResults : List (NodeId × ExecutionResult V))
    (acc : List (PortId × V)) (conn : Connection) : List (PortId × V) :=
  match lookupA executionResults conn.fromNode with
  | some r =>
    if r.success = true then
      match r.outputs with
      | some outs =>
        match lookupA outs conn.fromPort with
        | some v => setA acc conn.toPort v
        | none => acc
      | none => acc
    else acc
  | none => acc

/-- `gatherNodeInputs`: start from the caller-supplied initial inputs for
the node, then for each incoming connection whose source result is present,
successful and has an output map, copy the source output at `fromPort`
(when defined) to `toPort`. -/
def gatherNodeInputs {V : Type} (ex : Executor V)
    (executionResults : List (NodeId × ExecutionResult V)) (nodeId : NodeId)
    (initialInputs : List (NodeId × List (PortId × V))) : List (PortId × V) :=
  match lookupA ex.nodes nodeId with
  | none => []
  | some _ =>
    let inputs : List (PortId × V) :=
      match lookupA initialInputs nodeId with
      | some m => m.foldl (fun acc pv => setA acc pv.1 pv.2) []
      | none => []
    let incoming := ex.connections.filter (fun c => decide (c.toNode = nodeId))
    incoming.foldl (gatherStep executionResults) inputs

end NodeExecutor

open NodeExecutor in
/-- **C10.** For every executor and node, `addNode` raises exactly when
`node.validate()` is false; in particular adding a valid node whose id is
already present does not raise — it silently replaces the stored node
(keeping its map position) while the connections are untouched. -/
theorem addNode_raises_iff_invalid_and_silently_replaces {V : Type} :
    (∀ (ex : Executor V) (node : BaseNode V),
      ((∃ msg, addNode ex node = .error msg) ↔ node.validate = false)) ∧
    (∀ (ex : Executor V) (node old : BaseNode V),
      node.validate = true → lookupA ex.nodes node.id = some old →
      addNode ex node = .ok { ex with nodes := setA ex.nodes node.id node } ∧
      lookupA (setA ex.nodes node.id node) node.id = some node ∧
      (∀ k, k ≠ node.id →
        lookupA (setA ex.nodes node.id node) k = lookupA ex.nodes k) ∧
      ({ ex with nodes := setA ex.nodes node.id node } : Executor V).connections
        = ex.connections) := by
  constructor
  · intro ex node
    constructor
    · rintro ⟨msg, hmsg⟩
      by_contra hval
      have hval2 : node.validate = true := by
        cases h : node.validate with
        | false => exact absurd h hval
        | true => rfl
      unfold addNode at hmsg
      rw [hval2] at hmsg
      simp at hmsg
    · intro hval
      exact ⟨_, by unfold addNode; rw [hval]; rfl⟩
  · intro ex node old hval _
    refine ⟨?_, lookupA_setA_self _ _ _, ?_, rfl⟩
    · unfold addNode
      rw [hval]
      rfl
    · intro k hk
      exact lookupA_setA_ne _ _ _ _ hk

/-- Witness for C10: adding a 2nd node with the same id "a" replaces the
first while the single connection referencing "a" stays. -/
theorem addNode_raises_iff_invalid_and_silently_replaces_witness :
    NodeExecutor.addNode (V := Nat)
      { nodes := [("a",
          { id := "a", name := "first", inputs := [], outputs := [],
            executeInternal := fun _ => .ok [] })],
        connections := [Connection.mk "c1" "a" "out" "b" "in"] }
      { id := "a", name := "second", inputs := [], outputs := [],
        executeInternal := fun _ => .ok [] }
      = .ok
        { nodes := setA
            [("a",
              { id := "a", name := "first", inputs := [], outputs := [],
                executeInternal := fun _ => .ok [] })] "a"
            { id := "a", name := "second", inputs := [], outputs := [],
              executeInternal := fun _ => .ok [] },
          connections := [Connection.mk "c1" "a" "out" "b" "in"] } :=
  ((addNode_raises_iff_invalid_and_silently_replaces (V := Nat)).2
    { nodes := [("a",
        { id := "a", name := "first", inputs := [], outputs := [],
          executeInternal := fun _ => .ok [] })],
      connections := [Connection.mk "c1" "a" "out" "b" "in"] }
    { id := "a", name := "second", inputs := [], outputs := [],
      executeInternal := fun _ => .ok [] }
    { id := "a", name := "first", inputs := [], outputs := [],
      executeInternal := fun _ => .ok [] }
    rfl rfl).1

theorem lookupA_foldl_setA {κ α : Type} [DecidableEq κ]
    (pairs : List (κ × α)) :
    ∀ (m : List (κ × α)) (k : κ),
    lookupA (pairs.foldl (fun acc pv => setA acc pv.1 pv.2) m) k
      = (lookupA pairs.reverse k).orElse (fun _ => lookupA m k) := by
  induction pairs with
  | nil => intro m k; simp [lookupA, Option.orElse]
  | cons pv rest ih =>
    intro m k
    rw [List.foldl_cons, ih (setA m pv.1 pv.2) k, List.reverse_cons, lookupA_append]
    by_cases hk : pv.1 = k
    · subst hk
      rw [lookupA_setA_self]
      have hone : lookupA [pv] pv.1 = some pv.2 := by
        show (if pv.1 = pv.1 then some pv.2 else none) = some pv.2
        rw [if_pos rfl]
      rw [hone]
      cases lookupA rest.reverse pv.1 <;> simp [Option.orElse]
    · rw [lookupA_setA_ne m pv.1 k pv.2 (fun h => hk h.symm)]
      have hone : lookupA [pv] k = none := by
        show (if pv.1 = k then some pv.2 else none) = none
        rw [if_neg hk]
      rw [hone]
      cases lookupA rest.reverse k <;> simp [Option.orElse]

/-- The value a single incoming connection contributes to a node's
effective input map, following the specification: the source node's stored
result must be successful (and carry an output map defining the
from-port); the value is bound to the connection's to-port. A connection
whose source failed (or has not run) contributes nothing. -/
def forwardContribution {V : Type} (executionResults : List (NodeId × ExecutionResult V))
    (conn : Connection) : Option (PortId × V) :=
  match lookupA executionResults conn.fromNode with
  | some r =>
    if r.success = true then
      match r.outputs with
      | some outs => (lookupA outs conn.fromPort).map (fun v => (conn.toPort, v))
      | none => none
    else none
  | none => none

/-- All values forwarded into `nodeId` along its incoming connections, in
connection order. -/
def forwardedPairs {V : Type} (ex : Executor V)
    (executionResults : List (NodeId × ExecutionResult V)) (nodeId : NodeId) :
    List (PortId × V) :=
  (ex.connections.filter (fun c => decide (c.toNode = nodeId))).filterMap
    (forwardContribution executionResults)

theorem gatherStep_eq {V : Type} (executionResults : List (NodeId × ExecutionResult V))
    (acc : List (PortId × V)) (conn : Connection) :
    NodeExecutor.gatherStep executionResults acc conn
      = match forwardContribution executionResults conn with
        | some pv => setA acc pv.1 pv.2
        | none => acc := by
  unfold NodeExecutor.gatherStep forwardContribution
  cases lookupA executionResults conn.fromNode with
  | none => rfl
  | some r =>
    dsimp only
    by_cases hs : r.success = true
    · rw [if_pos hs, if_pos hs]
      cases r.outputs with
      | none => rfl
      | some outs =>
        dsimp only
        cases lookupA outs conn.fromPort with
        | none => rfl
        | some v => rfl
    · rw [if_neg hs, if_neg hs]

theorem foldl_gatherStep_eq_filterMap {V : Type}
    (executionResults : List (NodeId × ExecutionResult V)) (l : List Connection) :
    ∀ (m : List (PortId × V)),
    l.foldl (NodeExecutor.gatherStep executionResults) m
      = (l.filterMap (forwardContribution executionResults)).foldl
          (fun acc pv => setA acc pv.1 pv.2) m := by
  induction l with
  | nil => intro m; rfl
  | cons c cs ih =>
    intro m
    rw [List.foldl_cons, List.filterMap_cons, gatherStep_eq]
    cases h : forwardContribution executionResults c with
    | none => rw [ih]
    | some pv => rw [List.foldl_cons, ih]

open NodeExecutor in
/-- **C4.** For every node present in the executor, its effective input
map (as computed by `gatherNodeInputs`) is, pointwise at every port, the
last value forwarded to that port along an incoming connection whose
source result was successful — falling back, when no connection forwards
to the port, to the caller-supplied initial input for that node; forwarded
values are written after, and so take precedence over, initial values, and
failed sources contribute nothing (`forwardContribution`). The nodup
hypothesis states that the caller-supplied per-node map has the unique
keys of a JavaScript `Map`. -/
theorem gatherNodeInputs_initial_merged_with_forwarded {V : Type}
    (ex : Executor V) (executionResults : List (NodeId × ExecutionResult V))
    (nodeId : NodeId) (initialInputs : List (NodeId × List (PortId × V)))
    (p : PortId)
    (hnode : (lookupA ex.nodes nodeId).isSome = true)
    (hnod : (((lookupA initialInputs nodeId).getD []).map Prod.fst).Nodup) :
    lookupA (gatherNodeInputs ex executionResults nodeId initialInputs) p
      = (lookupA (forwardedPairs ex executionResults nodeId).reverse p).orElse
          (fun _ => lookupA ((lookupA initialInputs nodeId).getD []) p) := by
  obtain ⟨node, hn⟩ := Option.isSome_iff_exists.mp hnode
  unfold gatherNodeInputs
  rw [hn]
  have hbody : ∀ (m : List (PortId × V)),
      ((ex.connections.filter (fun c => decide (c.toNode = nodeId))).foldl
        (NodeExecutor.gatherStep executionResults) m)
      = (forwardedPairs ex executionResults nodeId).foldl
          (fun acc pv => setA acc pv.1 pv.2) m := by
    intro m
    unfold forwardedPairs
    exact foldl_gatherStep_eq_filterMap executionResults _ m
  cases hi : lookupA initialInputs nodeId with
  | none =>
    simp only [hi, Option.getD]
    rw [hbody []]
    rw [lookupA_foldl_setA]
  | some m0 =>
    simp only [hi, Option.getD] at hnod ⊢
    rw [hbody _, lookupA_foldl_setA, lookupA_foldl_setA]
    have : lookupA m0.reverse p = lookupA m0 p := lookupA_reverse m0 hnod p
    rw [this]
    cases lookupA (forwardedPairs ex executionResults nodeId).reverse p <;>
      cases hm : lookupA m0 p <;> simp [Option.orElse, lookupA]

/-- Witness for C4 on a concrete graph: node `b` has initial input at port
`q` and `in`; the connection `a.out → b.in` from the successful source `a`
overrides the initial value at `in`, while port `q` keeps its initial
value. -/
theorem gatherNodeInputs_initial_merged_with_forwarded_witness :
    lookupA (NodeExecutor.gatherNodeInputs (V := Nat)
      { nodes := [("b",
          { id := "b", name := "B", inputs := [], outputs := [],
            executeInternal := fun _ => .ok [] })],
        connections := [Connection.mk "c1" "a" "out" "b" "in"] }
      [("a", { success := true, outputs := some [("out", 5)] })]
      "b" [("b", [("in", 1), ("q", 2)])]) "in"
      = (lookupA (forwardedPairs (V := Nat)
          { nodes := [("b",
              { id := "b", name := "B", inputs := [], outputs := [],
                executeInternal := fun _ => .ok [] })],
            connections := [Connection.mk "c1" "a" "out" "b" "in"] }
          [("a", { success := true, outputs := some [("out", 5)] })] "b").reverse
            "in").orElse
          (fun _ => lookupA ((lookupA [("b", [("in", (1 : Nat)), ("q", 2)])] "b").getD [])
            "in") :=
  gatherNodeInputs_initial_merged_with_forwarded
    { nodes := [("b",
        { id := "b", name := "B", inputs := [], outputs := [],
          executeInternal := fun _ => .ok [] })],
      connections := [Connection.mk "c1" "a" "out" "b" "in"] }
    [("a", { success := true, outputs := some [("out", 5)] })]
    "b" [("b", [("in", 1), ("q", 2)])] "in" rfl (by decide)

/-! ## Dependency graph and scheduling (`src/core/NodeExecutor.ts`)

The recursion of `buildExecutionOrder`/`buildExecutionLevels` is unbounded
in the source; the embedding uses explicit fuel and proves the chosen fuel
sufficient (the `.fuel` error is never returned), so the functions agree
with the source on every input. -/

/-- The dependency-graph view of an executor: its node map keys and
connection map values, in insertion order. -/
structure Graph where
  nodeIds : List NodeId
  connections : List Connection
deriving DecidableEq, Repr

/-- The graph of an executor. -/
def Executor.toGraph {V : Type} (ex : Executor V) : Graph :=
  ⟨ex.nodes.map Prod.fst, ex.connections⟩

/-- `getNodeDependencies`: the source nodes of the connections into `n`. -/
def getNodeDependencies (g : Graph) (n : NodeId) : List NodeId :=
  (g.connections.filter (fun c => decide (c.toNode = n))).map (fun c => c.fromNode)

/-- Structural errors thrown by the executor during a run. -/
inductive ExecError where
  | cyclic (n : NodeId)
  | notFound (n : NodeId)
  | fuel
deriving DecidableEq, Repr

/-- Every node id mentioned anywhere in the graph. -/
def graphUniverse (g : Graph) : List NodeId :=
  (g.nodeIds ++ g.connections.map (fun c => c.fromNode)
    ++ g.connections.map (fun c => c.toNode)).dedup

/-- Fuel sufficient for the depth-first traversals (proven below). -/
def execFuel (g : Graph) : Nat := (graphUniverse g).length + 1

/-- `a` is a dependency of `b`: some connection runs from `a` to `b`. -/
def depEdge (g : Graph) (a b : NodeId) : Prop := a ∈ getNodeDependencies g b

instance (g : Graph) (a b : NodeId) : Decidable (depEdge g a b) :=
  inferInstanceAs (Decidable (a ∈ getNodeDependencies g b))

/-- A directed cycle among the added nodes: a node `n` and a (possibly
empty) path `p` with connections `n → p₀ → ⋯ → pₖ → n`, all the involved
nodes being added to the executor. -/
def HasCycle (g : Graph) : Prop :=
  ∃ (n : NodeId) (p : List NodeId),
    List.Chain' (depEdge g) (n :: (p ++ [n])) ∧ ∀ v ∈ n :: p, v ∈ g.nodeIds

/-- Every connection references added nodes (the executor's
`validateConnection` enforces this on `addConnection`, and `removeNode`
cascades connection removal). -/
def WellFormed (g : Graph) : Prop :=
  ∀ c ∈ g.connections, c.fromNode ∈ g.nodeIds ∧ c.toNode ∈ g.nodeIds

namespace NodeExecutor

mutual
/-- The recursive `visit` of `buildExecutionOrder`: `visiting` is the
in-progress marker set, `visited`/`order` the done set and the output
order. -/
def visitNode (g : Graph) (fuel : Nat) (n : NodeId)
    (visiting visited order : List NodeId) :
    Except ExecError (List NodeId × List NodeId) :=
  match fuel with
  | 0 => .error .fuel
  | fuel + 1 =>
    if n ∈ visiting then .error (.cyclic n)
    else if n ∈ visited then .ok (visited, order)
    else
      match visitDeps g fuel (getNodeDependencies g n) (n :: visiting) visited order with
      | .error e => .error e
      | .ok (visited1, order1) => .ok (n :: visited1, order1 ++ [n])
termination_by (fuel, 0)

/-- The `for (dep of dependencies) visit(dep)` loop of `visit`. -/
def visitDeps (g : Graph) (fuel : Nat) (ds : List NodeId)
    (visiting visited order : List NodeId) :
    Except ExecError (List NodeId × List NodeId) :=
  match ds with
  | [] => .ok (visited, order)
  | d :: rest =>
    match visitNode g fuel d visiting visited order with
    | .error e => .error e
    | .ok (visited1, order1) => visitDeps g fuel rest visiting visited1 order1
termination_by (fuel, ds.length + 1)
end

/-- The `for (nodeId of this.nodes.keys())` loop of `buildExecutionOrder`. -/
def buildOrderLoop (g : Graph) (fuel : Nat) :
    List NodeId → List NodeId → List NodeId → Except ExecError (List NodeId)
  | [], _, order => .ok order
  | n :: ns, visited, order =>
    if n ∈ visited then buildOrderLoop g fuel ns visited order
    else
      match visitNode g fuel n [] visited order with
      | .error e => .error e
      | .ok (visited1, order1) => buildOrderLoop g fuel ns visited1 order1

/-- `buildExecutionOrder`. -/
def buildExecutionOrder (g : Graph) : Except ExecError (List NodeId) :=
  buildOrderLoop g (execFuel g) g.nodeIds [] []

end NodeExecutor

/-- State of `buildExecutionLevels`: the `nodeLevels` memo map (in
insertion order; `Map.set` is only called on fresh keys) and the
in-progress `visited` set. -/
structure LevelState where
  memo : List (NodeId × Nat)
  visited : List NodeId
deriving DecidableEq, Repr

namespace NodeExecutor

mutual
/-- The recursive `calculateLevel` of `buildExecutionLevels`: memo hit
first, then cycle check, then `visited.add`; a node without dependencies
is memoized at level 0 (and stays in `visited` — the source does not
delete it there, which is unobservable behind the memo hit); otherwise the
level is 1 + the maximum of the dependency levels, the node is memoized and
removed from `visited`. -/
def calcLevel (g : Graph) (fuel : Nat) (n : NodeId) (s : LevelState) :
    Except ExecError (Nat × LevelState) :=
  match fuel with
  | 0 => .error .fuel
  | fuel + 1 =>
    match lookupA s.memo n with
    | some l => .ok (l, s)
    | none =>
      if n ∈ s.visited then .error (.cyclic n)
      else
        match getNodeDependencies g n with
        | [] => .ok (0, ⟨s.memo ++ [(n, 0)], n :: s.visited⟩)
        | d :: rest =>
          match calcLevels g fuel (d :: rest) ⟨s.memo, n :: s.visited⟩ with
          | .error e => .error e
          | .ok (ls, s2) =>
            .ok (ls.foldl Nat.max 0 + 1,
              ⟨s2.memo ++ [(n, ls.foldl Nat.max 0 + 1)], s2.visited.erase n⟩)
termination_by (fuel, 0)

/-- The `dependencies.map(dep => calculateLevel(dep))` loop (evaluated
left to right, threading the state). -/
def calcLevels (g : Graph) (fuel : Nat) (ds : List NodeId) (s : LevelState) :
    Except ExecError (List Nat × LevelState) :=
  match ds with
  | [] => .ok ([], s)
  | d :: rest =>
    match calcLevel g fuel d s with
    | .error e => .error e
    | .ok (l, s1) =>
      match calcLevels g fuel rest s1 with
      | .error e => .error e
      | .ok (ls, s2) => .ok (l :: ls, s2)
termination_by (fuel, ds.length + 1)
end

/-- The `for (nodeId of this.nodes.keys()) calculateLevel(nodeId)` loop. -/
def calcAllLevels (g : Graph) (fuel : Nat) :
    List NodeId → LevelState → Except ExecError LevelState
  | [], s => .ok s
  | n :: ns, s =>
    match calcLevel g fuel n s with
    | .error e => .error e
    | .ok (_, s1) => calcAllLevels g fuel ns s1

/-- The grouping loop at the end of `buildExecutionLevels`: for each level
value from 0 to the maximum, push the (nonempty) list of memoized nodes at
that level, in memo insertion order. -/
def groupLevels (memo : List (NodeId × Nat)) : List (List NodeId) :=
  let maxLevel := (memo.map Prod.snd).foldl Nat.max 0
  (List.range (maxLevel + 1)).filterMap (fun i =>
    let ns := (memo.filter (fun p => decide (p.2 = i))).map Prod.fst
    if ns.isEmpty then none else some ns)

/-- `buildExecutionLevels`. -/
def buildExecutionLevels (g : Graph) : Except ExecError (List (List NodeId)) :=
  match calcAllLevels g (execFuel g) g.nodeIds ⟨[], []⟩ with
  | .error e => .error e
  | .ok s => .ok (groupLevels s.memo)

/-- `executeNode`: look the node up (throwing when missing), gather its
inputs, build the fresh context, run the node, store the result.
`BaseNode.execute` is total, so node failures never throw here; the
unobservable measured duration is passed as 0. -/
def executeNode {V : Type} (ex : Executor V) (executionId : String)
    (results : List (NodeId × ExecutionResult V))
    (initialInputs : List (NodeId × List (PortId × V))) (nodeId : NodeId) :
    Except ExecError (List (NodeId × ExecutionResult V)) :=
  match lookupA ex.nodes nodeId with
  | none => .error (.notFound nodeId)
  | some node =>
    let inputs := gatherNodeInputs ex results nodeId initialInputs
    let ctx : ExecutionContext V := { executionId := executionId, inputs := inputs }
    .ok (setA results nodeId (node.execute ctx 0))

/-- `NodeExecutor.execute`: build the topological order, then run the
nodes strictly one at a time, accumulating `executionResults`; a thrown
structural error propagates with no result map. -/
def execute {V : Type} (ex : Executor V) (executionId : String)
    (initialInputs : List (NodeId × List (PortId × V))) :
    Except ExecError (List (NodeId × ExecutionResult V)) :=
  match buildExecutionOrder ex.toGraph with
  | .error e => .error e
  | .ok order =>
    order.foldlM (fun results n => executeNode ex executionId results initialInputs n) []

/-- `NodeExecutor.executeParallel`: build the levels, run every node of a
level, wait for the whole level before the next. The source launches a
level's members concurrently; levels separate dependencies, so no sibling
reads another sibling's result while gathering inputs, and the level is
modelled by running its members in order. -/
def executeParallel {V : Type} (ex : Executor V) (executionId : String)
    (initialInputs : List (NodeId × List (PortId × V))) :
    Except ExecError (List (NodeId × ExecutionResult V)) :=
  match buildExecutionLevels ex.toGraph with
  | .error e => .error e
  | .ok levels =>
    levels.foldlM (fun results level =>
      level.foldlM (fun results n => executeNode ex executionId results initialInputs n)
        results) []

/-- The nodes `execute` invokes `executeNode` on, in order: the built
order, or none at all when the order construction throws (the error
propagates before the loop starts). -/
def executedNodesSeq {V : Type} (ex : Executor V) : List NodeId :=
  match buildExecutionOrder ex.toGraph with
  | .error _ => []
  | .ok order => order

/-- The nodes `executeParallel` launches, in level order; none when the
level construction throws. -/
def executedNodesPar {V : Type} (ex : Executor V) : List NodeId :=
  match buildExecutionLevels ex.toGraph with
  | .error _ => []
  | .ok levels => levels.flatten

end NodeExecutor

/-! ### Generic list decomposition helpers -/

theorem mem_split_first {α : Type} [DecidableEq α] {a : α} {l : List α} (h : a ∈ l) :
    ∃ s t, l = s ++ a :: t ∧ a ∉ s := by
  induction l with
  | nil => cases h
  | cons x xs ih =>
    by_cases hx : x = a
    · exact ⟨[], xs, by simp [hx], by simp⟩
    · have hmem : a ∈ xs := by
        rcases List.mem_cons.mp h with h2 | h2
        · exact absurd h2.symm hx
        · exact h2
      obtain ⟨s, t, rfl, hns⟩ := ih hmem
      refine ⟨x :: s, t, rfl, ?_⟩
      simp only [List.mem_cons, not_or]
      exact ⟨fun hh => hx hh.symm, hns⟩

theorem append_singleton_decomp {α : Type} {o l1 l2 : List α} {n m : α}
    (h : o ++ [n] = l1 ++ m :: l2) :
    (l2 = [] ∧ m = n ∧ l1 = o) ∨ (∃ l2t, l2 = l2t ++ [n] ∧ o = l1 ++ m :: l2t) := by
  rcases List.eq_nil_or_concat l2 with rfl | ⟨l2t, x, rfl⟩
  · left
    obtain ⟨ho, hn⟩ := List.append_inj' h rfl
    have hmn : m = n := by simpa using hn.symm
    exact ⟨rfl, hmn, ho.symm⟩
  · right
    have h2 : o ++ [n] = (l1 ++ m :: l2t) ++ [x] := by
      rw [h]
      simp
    obtain ⟨ho, hnx⟩ := List.append_inj' h2 rfl
    have hxn : x = n := by simpa using hnx.symm
    exact ⟨l2t, by rw [hxn, List.concat_eq_append], ho⟩

/-! ### Topological-order invariant of `buildExecutionOrder` -/

/-- Every element of the order has all its dependencies strictly earlier. -/
def OrderInv (g : Graph) (o : List NodeId) : Prop :=
  ∀ l1 m l2, o = l1 ++ m :: l2 → ∀ d, depEdge g d m → d ∈ l1

/-- The DFS invariant: `visited` and the built `order` carry the same
members, and the order respects dependencies. -/
def GoodState (g : Graph) (visited order : List NodeId) : Prop :=
  (∀ x, x ∈ visited ↔ x ∈ order) ∧ OrderInv g order

theorem orderInv_nil (g : Graph) : OrderInv g [] := by
  intro l1 m l2 h
  exact absurd h.symm (by simp)

theorem orderInv_append (g : Graph) (o : List NodeId) (n : NodeId)
    (hInv : OrderInv g o) (hdeps : ∀ d, depEdge g d n → d ∈ o) :
    OrderInv g (o ++ [n]) := by
  intro l1 m l2 heq d hd
  rcases append_singleton_decomp heq with ⟨-, rfl, rfl⟩ | ⟨l2t, -, rfl⟩
  · exact hdeps d hd
  · exact hInv l1 m l2t rfl d hd

theorem orderInv_edge_lt (g : Graph) (o : List NodeId) (hInv : OrderInv g o)
    {a b : NodeId} (hedge : depEdge g a b) (hb : b ∈ o) :
    a ∈ o ∧ o.indexOf a < o.indexOf b := by
  obtain ⟨s, t, rfl, hbs⟩ := mem_split_first hb
  have ha : a ∈ s := hInv s b t rfl a hedge
  constructor
  · exact List.mem_append.mpr (Or.inl ha)
  · rw [List.indexOf_append_of_mem ha, List.indexOf_append_of_not_mem hbs]
    have h1 : s.indexOf a < s.length := List.indexOf_lt_length.mpr ha
    have h2 : List.indexOf b (b :: t) = 0 := by
      simp [List.indexOf_cons_self]
    omega

theorem chain_indexOf_lt (g : Graph) (o : List NodeId) (hInv : OrderInv g o) :
    ∀ (l : List NodeId) (a b : NodeId),
      List.Chain' (depEdge g) (a :: (l ++ [b])) → b ∈ o →
      a ∈ o ∧ o.indexOf a < o.indexOf b := by
  intro l
  induction l with
  | nil =>
    intro a b hch hb
    have hedge : depEdge g a b := (List.chain'_cons.mp hch).1
    exact orderInv_edge_lt g o hInv hedge hb
  | cons c l ih =>
    intro a b hch hb
    have hch2 : List.Chain' (depEdge g) (a :: c :: (l ++ [b])) := hch
    obtain ⟨hac, hcht⟩ := List.chain'_cons.mp hch2
    obtain ⟨hc, hlt⟩ := ih c b hcht hb
    obtain ⟨ha, hlt2⟩ := orderInv_edge_lt g o hInv hac hc
    exact ⟨ha, lt_trans hlt2 hlt⟩

theorem orderInv_no_cycle (g : Graph) (o : List NodeId) (hInv : OrderInv g o)
    (hall : ∀ v ∈ g.nodeIds, v ∈ o) (hcyc : HasCycle g) : False := by
  obtain ⟨n, p, hch, hmem⟩ := hcyc
  have hn : n ∈ o := hall n (hmem n (List.mem_cons_self n p))
  obtain ⟨-, hlt⟩ := chain_indexOf_lt g o hInv p n n hch hn
  omega

namespace NodeExecutor

theorem visitNode_zero (g : Graph) (n : NodeId) (visiting visited order : List NodeId) :
    visitNode g 0 n visiting visited order = .error .fuel := by
  unfold visitNode
  rfl

theorem visitNode_succ (g : Graph) (fuel : Nat) (n : NodeId)
    (visiting visited order : List NodeId) :
    visitNode g (fuel + 1) n visiting visited order =
      if n ∈ visiting then .error (.cyclic n)
      else if n ∈ visited then .ok (visited, order)
      else
        match visitDeps g fuel (getNodeDependencies g n) (n :: visiting) visited order with
        | .error e => .error e
        | .ok (visited1, order1) => .ok (n :: visited1, order1 ++ [n]) := by
  conv_lhs => unfold visitNode

theorem visitDeps_nil (g : Graph) (fuel : Nat) (visiting visited order : List NodeId) :
    visitDeps g fuel [] visiting visited order = .ok (visited, order) := by
  unfold visitDeps
  rfl

theorem visitDeps_cons (g : Graph) (fuel : Nat) (d : NodeId) (rest : List NodeId)
    (visiting visited order : List NodeId) :
    visitDeps g fuel (d :: rest) visiting visited order =
      match visitNode g fuel d visiting visited order with
      | .error e => .error e
      | .ok (visited1, order1) => visitDeps g fuel rest visiting visited1 order1 := by
  conv_lhs => unfold visitDeps

/-- Success invariants of `visit`: the done set only grows, the visited
node ends up done, and `GoodState` is preserved. -/
def VisitNodeOK (g : Graph) (fuel : Nat) : Prop :=
  ∀ n visiting visited order visited1 order1,
    visitNode g fuel n visiting visited order = .ok (visited1, order1) →
    (∀ x ∈ visited, x ∈ visited1) ∧ n ∈ visited1 ∧
    (GoodState g visited order → GoodState g visited1 order1)

/-- Success invariants of the dependency loop. -/
def VisitDepsOK (g : Graph) (fuel : Nat) : Prop :=
  ∀ ds visiting visited order visited1 order1,
    visitDeps g fuel ds visiting visited order = .ok (visited1, order1) →
    (∀ x ∈ visited, x ∈ visited1) ∧ (∀ d ∈ ds, d ∈ visited1) ∧
    (GoodState g visited order → GoodState g visited1 order1)

theorem visitDepsOK_of (g : Graph) (fuel : Nat) (hN : VisitNodeOK g fuel) :
    VisitDepsOK g fuel := by
  intro ds
  induction ds with
  | nil =>
    intro visiting visited order visited1 order1 hok
    rw [visitDeps_nil] at hok
    obtain ⟨rfl, rfl⟩ : visited = visited1 ∧ order = order1 := by
      simpa using hok
    exact ⟨fun x hx => hx, by simp, id⟩
  | cons d rest ih =>
    intro visiting visited order visited1 order1 hok
    rw [visitDeps_cons] at hok
    cases hv : visitNode g fuel d visiting visited order with
    | error e => rw [hv] at hok; simp at hok
    | ok p =>
      obtain ⟨v1, o1⟩ := p
      rw [hv] at hok
      obtain ⟨hm1, hn1, hg1⟩ := hN d visiting visited order v1 o1 hv
      obtain ⟨hm2, hds2, hg2⟩ := ih visiting v1 o1 visited1 order1 hok
      refine ⟨fun x hx => hm2 x (hm1 x hx), ?_, fun hg => hg2 (hg1 hg)⟩
      intro d2 hd2
      rcases List.mem_cons.mp hd2 with rfl | hd2
      · exact hm2 d2 hn1
      · exact hds2 d2 hd2

theorem visitNodeOK_succ (g : Graph) (fuel : Nat) (hD : VisitDepsOK g fuel) :
    VisitNodeOK g (fuel + 1) := by
  intro n visiting visited order visited1 order1 hok
  rw [visitNode_succ] at hok
  by_cases h1 : n ∈ visiting
  · rw [if_pos h1] at hok; simp at hok
  rw [if_neg h1] at hok
  by_cases h2 : n ∈ visited
  · rw [if_pos h2] at hok
    obtain ⟨rfl, rfl⟩ : visited = visited1 ∧ order = order1 := by
      simpa using hok
    exact ⟨fun x hx => hx, h2, id⟩
  · rw [if_neg h2] at hok
    cases hv : visitDeps g fuel (getNodeDependencies g n) (n :: visiting) visited order with
    | error e => rw [hv] at hok; simp at hok
    | ok p =>
      obtain ⟨v1, o1⟩ := p
      rw [hv] at hok
      obtain ⟨h3, h4⟩ : n :: v1 = visited1 ∧ o1 ++ [n] = order1 := by
        simpa using hok
      subst h3
      subst h4
      obtain ⟨hm, hds, hg⟩ := hD _ _ _ _ _ _ hv
      refine ⟨fun x hx => List.mem_cons_of_mem n (hm x hx), List.mem_cons_self n v1, ?_⟩
      intro hgood
      obtain ⟨hiff, hinv⟩ := hg hgood
      constructor
      · intro x
        constructor
        · intro hx
          rcases List.mem_cons.mp hx with rfl | hx
          · exact List.mem_append.mpr (Or.inr (List.mem_singleton.mpr rfl))
          · exact List.mem_append.mpr (Or.inl ((hiff x).mp hx))
        · intro hx
          rcases List.mem_append.mp hx with hx | hx
          · exact List.mem_cons_of_mem n ((hiff x).mpr hx)
          · exact (List.mem_singleton.mp hx) ▸ List.mem_cons_self n v1
      · apply orderInv_append g o1 n hinv
        intro d hd
        exact (hiff d).mp (hds d hd)

theorem visitNodeOK (g : Graph) : ∀ fuel, VisitNodeOK g fuel := by
  intro fuel
  induction fuel with
  | zero =>
    intro n visiting visited order v1 o1 hok
    rw [visitNode_zero] at hok
    simp at hok
  | succ fuel ih => exact visitNodeOK_succ g fuel (visitDepsOK_of g fuel ih)

theorem visitDepsOK (g : Graph) (fuel : Nat) : VisitDepsOK g fuel :=
  visitDepsOK_of g fuel (visitNodeOK g fuel)

theorem buildOrderLoop_ok (g : Graph) (fuel : Nat) :
    ∀ (ns visited order : List NodeId) (result : List NodeId),
      buildOrderLoop g fuel ns visited order = .ok result →
      GoodState g visited order →
      ∃ vF, (∀ x ∈ visited, x ∈ vF) ∧ (∀ n ∈ ns, n ∈ vF) ∧ GoodState g vF result := by
  intro ns
  induction ns with
  | nil =>
    intro visited order result hok hg
    have : order = result := by simpa [buildOrderLoop] using hok
    subst this
    exact ⟨visited, fun x hx => hx, by simp, hg⟩
  | cons n ns ih =>
    intro visited order result hok hg
    rw [buildOrderLoop] at hok
    by_cases h1 : n ∈ visited
    · rw [if_pos h1] at hok
      obtain ⟨vF, hm, hns, hgF⟩ := ih visited order result hok hg
      refine ⟨vF, hm, ?_, hgF⟩
      intro x hx
      rcases List.mem_cons.mp hx with rfl | hx
      · exact hm x h1
      · exact hns x hx
    · rw [if_neg h1] at hok
      cases hv : visitNode g fuel n [] visited order with
      | error e => rw [hv] at hok; simp at hok
      | ok p =>
        obtain ⟨v1, o1⟩ := p
        rw [hv] at hok
        obtain ⟨hm1, hn1, hg1⟩ := visitNodeOK g fuel n [] visited order v1 o1 hv
        obtain ⟨vF, hm, hns, hgF⟩ := ih v1 o1 result hok (hg1 hg)
        refine ⟨vF, fun x hx => hm x (hm1 x hx), ?_, hgF⟩
        intro x hx
        rcases List.mem_cons.mp hx with rfl | hx
        · exact hm x hn1
        · exact hns x hx

/-- A successfully built execution order rules out a dependency cycle
among the added nodes. -/
theorem buildExecutionOrder_ok_no_cycle (g : Graph) (order : List NodeId)
    (hok : buildExecutionOrder g = .ok order) : ¬ HasCycle g := by
  intro hcyc
  unfold buildExecutionOrder at hok
  obtain ⟨vF, -, hns, hiff, hinv⟩ :=
    buildOrderLoop_ok g (execFuel g) g.nodeIds [] [] order hok
      ⟨fun x => Iff.rfl, orderInv_nil g⟩
  exact orderInv_no_cycle g order hinv (fun v hv => (hiff v).mp (hns v hv)) hcyc

/-! ### Error classification and fuel sufficiency for `buildExecutionOrder` -/

/-- `visit` only throws cycle detection (or runs out of fuel, excluded
below). -/
def VisitNodeErr (g : Graph) (fuel : Nat) : Prop :=
  ∀ n visiting visited order e,
    visitNode g fuel n visiting visited order = .error e →
    e = .fuel ∨ ∃ m, e = .cyclic m

def VisitDepsErr (g : Graph) (fuel : Nat) : Prop :=
  ∀ ds visiting visited order e,
    visitDeps g fuel ds visiting visited order = .error e →
    e = .fuel ∨ ∃ m, e = .cyclic m

theorem visitDepsErr_of (g : Graph) (fuel : Nat) (hN : VisitNodeErr g fuel) :
    VisitDepsErr g fuel := by
  intro ds
  induction ds with
  | nil =>
    intro visiting visited order e h
    rw [visitDeps_nil] at h
    simp at h
  | cons d rest ih =>
    intro visiting visited order e h
    rw [visitDeps_cons] at h
    cases hv : visitNode g fuel d visiting visited order with
    | error e2 =>
      rw [hv] at h
      have : e2 = e := by simpa using h
      subst this
      exact hN d visiting visited order e2 hv
    | ok p =>
      obtain ⟨v1, o1⟩ := p
      rw [hv] at h
      exact ih visiting v1 o1 e h

theorem visitNodeErr_succ (g : Graph) (fuel : Nat) (hD : VisitDepsErr g fuel) :
    VisitNodeErr g (fuel + 1) := by
  intro n visiting visited order e h
  rw [visitNode_succ] at h
  by_cases h1 : n ∈ visiting
  · rw [if_pos h1] at h
    have : ExecError.cyclic n = e := by simpa using h
    exact Or.inr ⟨n, this.symm⟩
  rw [if_neg h1] at h
  by_cases h2 : n ∈ visited
  · rw [if_pos h2] at h
    simp at h
  rw [if_neg h2] at h
  cases hv : visitDeps g fuel (getNodeDependencies g n) (n :: visiting) visited order with
  | error e2 =>
    rw [hv] at h
    have : e2 = e := by simpa using h
    subst this
    exact hD _ _ _ _ e2 hv
  | ok p =>
    obtain ⟨v1, o1⟩ := p
    rw [hv] at h
    simp at h

theorem visitNodeErr (g : Graph) : ∀ fuel, VisitNodeErr g fuel := by
  intro fuel
  induction fuel with
  | zero =>
    intro n visiting visited order e h
    rw [visitNode_zero] at h
    exact Or.inl (by simpa using h.symm)
  | succ fuel ih => exact visitNodeErr_succ g fuel (visitDepsErr_of g fuel ih)

theorem buildOrderLoop_err (g : Graph) (fuel : Nat) :
    ∀ ns visited order e,
      buildOrderLoop g fuel ns visited order = .error e →
      e = .fuel ∨ ∃ m, e = .cyclic m := by
  intro ns
  induction ns with
  | nil =>
    intro visited order e h
    simp [buildOrderLoop] at h
  | cons n ns ih =>
    intro visited order e h
    simp only [buildOrderLoop] at h
    by_cases h1 : n ∈ visited
    · rw [if_pos h1] at h
      exact ih visited order e h
    · rw [if_neg h1] at h
      cases hv : visitNode g fuel n [] visited order with
      | error e2 =>
        rw [hv] at h
        have : e2 = e := by simpa using h
        subst this
        exact visitNodeErr g fuel n [] visited order e2 hv
      | ok p =>
        obtain ⟨v1, o1⟩ := p
        rw [hv] at h
        exact ih v1 o1 e h

theorem deps_subset_universe (g : Graph) (n : NodeId) :
    ∀ d ∈ getNodeDependencies g n, d ∈ graphUniverse g := by
  intro d hd
  unfold getNodeDependencies at hd
  obtain ⟨c, hc, rfl⟩ := List.mem_map.mp hd
  have hc2 : c ∈ g.connections := List.mem_of_mem_filter hc
  unfold graphUniverse
  rw [List.mem_dedup]
  exact List.mem_append.mpr (Or.inl (List.mem_append.mpr
    (Or.inr (List.mem_map_of_mem _ hc2))))

theorem nodeIds_subset_universe (g : Graph) :
    ∀ n ∈ g.nodeIds, n ∈ graphUniverse g := by
  intro n hn
  unfold graphUniverse
  rw [List.mem_dedup]
  exact List.mem_append.mpr (Or.inl (List.mem_append.mpr (Or.inl hn)))

def VisitNodeFuel (g : Graph) (fuel : Nat) : Prop :=
  ∀ n visiting visited order,
    visiting.Nodup → (∀ x ∈ visiting, x ∈ graphUniverse g) →
    n ∈ graphUniverse g →
    (graphUniverse g).length + 1 ≤ fuel + visiting.length →
    visitNode g fuel n visiting visited order ≠ .error .fuel

def VisitDepsFuel (g : Graph) (fuel : Nat) : Prop :=
  ∀ ds visiting visited order,
    visiting.Nodup → (∀ x ∈ visiting, x ∈ graphUniverse g) →
    (∀ d ∈ ds, d ∈ graphUniverse g) →
    (graphUniverse g).length + 1 ≤ fuel + visiting.length →
    visitDeps g fuel ds visiting visited order ≠ .error .fuel

theorem visitDepsFuel_of (g : Graph) (fuel : Nat) (hN : VisitNodeFuel g fuel) :
    VisitDepsFuel g fuel := by
  intro ds
  induction ds with
  | nil =>
    intro visiting visited order _ _ _ _ hcon
    rw [visitDeps_nil] at hcon
    simp at hcon
  | cons d rest ih =>
    intro visiting visited order hnd hsub hds hbound hcon
    rw [visitDeps_cons] at hcon
    cases hv : visitNode g fuel d visiting visited order with
    | error e =>
      rw [hv] at hcon
      have : e = ExecError.fuel := by simpa using hcon
      subst this
      exact hN d visiting visited order hnd hsub
        (hds d (List.mem_cons_self d rest)) hbound hv
    | ok p =>
      obtain ⟨v1, o1⟩ := p
      rw [hv] at hcon
      exact ih visiting v1 o1 hnd hsub
        (fun d2 hd2 => hds d2 (List.mem_cons_of_mem d hd2)) hbound hcon

theorem visitNodeFuel (g : Graph) : ∀ fuel, VisitNodeFuel g fuel := by
  intro fuel
  induction fuel with
  | zero =>
    intro n visiting visited order hnd hsub _ hbound
    have hle : visiting.length ≤ (graphUniverse g).length :=
      (List.subperm_of_subset hnd (fun x hx => hsub x hx)).length_le
    exact absurd hbound (by omega)
  | succ fuel ih =>
    intro n visiting visited order hnd hsub hn hbound hcon
    rw [visitNode_succ] at hcon
    by_cases h1 : n ∈ visiting
    · rw [if_pos h1] at hcon
      simp at hcon
    rw [if_neg h1] at hcon
    by_cases h2 : n ∈ visited
    · rw [if_pos h2] at hcon
      simp at hcon
    rw [if_neg h2] at hcon
    cases hv : visitDeps g fuel (getNodeDependencies g n) (n :: visiting) visited order with
    | error e =>
      rw [hv] at hcon
      have : e = ExecError.fuel := by simpa using hcon
      subst this
      refine visitDepsFuel_of g fuel ih _ _ _ _ ?_ ?_ ?_ ?_ hv
      · exact List.nodup_cons.mpr ⟨h1, hnd⟩
      · intro x hx
        rcases List.mem_cons.mp hx with rfl | hx
        · exact hn
        · exact hsub x hx
      · exact fun d hd => deps_subset_universe g n d hd
      · simp only [List.length_cons]
        omega
    | ok p =>
      obtain ⟨v1, o1⟩ := p
      rw [hv] at hcon
      simp at hcon

theorem buildOrderLoop_no_fuel (g : Graph) :
    ∀ ns visited order,
      (∀ n ∈ ns, n ∈ g.nodeIds) →
      buildOrderLoop g (execFuel g) ns visited order ≠ .error .fuel := by
  intro ns
  induction ns with
  | nil =>
    intro visited order _ hcon
    simp [buildOrderLoop] at hcon
  | cons n ns ih =>
    intro visited order hsub hcon
    simp only [buildOrderLoop] at hcon
    by_cases h1 : n ∈ visited
    · rw [if_pos h1] at hcon
      exact ih visited order (fun x hx => hsub x (List.mem_cons_of_mem n hx)) hcon
    · rw [if_neg h1] at hcon
      cases hv : visitNode g (execFuel g) n [] visited order with
      | error e =>
        rw [hv] at hcon
        have : e = ExecError.fuel := by simpa using hcon
        subst this
        refine visitNodeFuel g (execFuel g) n [] visited order (by simp) (by simp)
          (nodeIds_subset_universe g n (hsub n (List.mem_cons_self n ns))) ?_ hv
        simp [execFuel]
      | ok p =>
        obtain ⟨v1, o1⟩ := p
        rw [hv] at hcon
        exact ih v1 o1 (fun x hx => hsub x (List.mem_cons_of_mem n hx)) hcon

/-- A graph with a dependency cycle among its nodes makes
`buildExecutionOrder` throw the circular-dependency error. -/
theorem buildExecutionOrder_cyclic_of_hasCycle (g : Graph) (hcyc : HasCycle g) :
    ∃ m, buildExecutionOrder g = .error (.cyclic m) := by
  cases h : buildExecutionOrder g with
  | ok order => exact absurd hcyc (buildExecutionOrder_ok_no_cycle g order h)
  | error e =>
    rcases buildOrderLoop_err g (execFuel g) g.nodeIds [] [] e h with rfl | ⟨m, rfl⟩
    · exact absurd h (buildOrderLoop_no_fuel g g.nodeIds [] [] (fun n hn => hn))
    · exact ⟨m, rfl⟩

/-! ### Invariants of `buildExecutionLevels` -/

theorem calcLevel_zero (g : Graph) (n : NodeId) (s : LevelState) :
    calcLevel g 0 n s = .error .fuel := by
  unfold calcLevel
  rfl

theorem calcLevel_succ (g : Graph) (fuel : Nat) (n : NodeId) (s : LevelState) :
    calcLevel g (fuel + 1) n s =
      match lookupA s.memo n with
      | some l => .ok (l, s)
      | none =>
        if n ∈ s.visited then .error (.cyclic n)
        else
          match getNodeDependencies g n with
          | [] => .ok (0, ⟨s.memo ++ [(n, 0)], n :: s.visited⟩)
          | d :: rest =>
            match calcLevels g fuel (d :: rest) ⟨s.memo, n :: s.visited⟩ with
            | .error e => .error e
            | .ok (ls, s2) =>
              .ok (ls.foldl Nat.max 0 + 1,
                ⟨s2.memo ++ [(n, ls.foldl Nat.max 0 + 1)], s2.visited.erase n⟩) := by
  conv_lhs => unfold calcLevel

theorem calcLevels_nil (g : Graph) (fuel : Nat) (s : LevelState) :
    calcLevels g fuel [] s = .ok ([], s) := by
  unfold calcLevels
  rfl

theorem calcLevels_cons (g : Graph) (fuel : Nat) (d : NodeId) (rest : List NodeId)
    (s : LevelState) :
    calcLevels g fuel (d :: rest) s =
      match calcLevel g fuel d s with
      | .error e => .error e
      | .ok (l, s1) =>
        match calcLevels g fuel rest s1 with
        | .error e => .error e
        | .ok (ls, s2) => .ok (l :: ls, s2) := by
  conv_lhs => unfold calcLevels

/-- The keys of the `nodeLevels` memo map. -/
def memoKeys (m : List (NodeId × Nat)) : List NodeId := m.map Prod.fst

/-- Local correctness of a memo entry, mirroring the specification's
recurrence: a node without dependencies is at level 0, otherwise at 1 +
the maximum of the (memoized) levels of its dependencies. -/
def LevelCorrect (g : Graph) (memo : List (NodeId × Nat)) (m : NodeId) (l : Nat) : Prop :=
  (getNodeDependencies g m = [] → l = 0) ∧
  (getNodeDependencies g m ≠ [] →
    (∀ d ∈ getNodeDependencies g m, (lookupA memo d).isSome = true) ∧
    l = ((getNodeDependencies g m).map
          (fun d => (lookupA memo d).getD 0)).foldl Nat.max 0 + 1)

/-- Every memoized entry is locally correct. -/
def MemoInv (g : Graph) (memo : List (NodeId × Nat)) : Prop :=
  ∀ p ∈ memo, LevelCorrect g memo p.1 p.2

/-- The effective in-progress stack: visited nodes not yet memoized
(memoized leaves linger in `visited` but are unreachable behind the memo
hit). -/
def trueStack (s : LevelState) : List NodeId :=
  s.visited.filter (fun v => (lookupA s.memo v).isNone)

theorem lookupA_mono_append {κ α : Type} [DecidableEq κ]
    (m Δ : List (κ × α)) (k : κ) (v : α) (h : lookupA m k = some v) :
    lookupA (m ++ Δ) k = some v := by
  rw [lookupA_append, h]
  rfl

theorem LevelCorrect.mono (g : Graph) (m1 m2 : List (NodeId × Nat)) (n : NodeId) (l : Nat)
    (hmono : ∀ k v, lookupA m1 k = some v → lookupA m2 k = some v)
    (h : LevelCorrect g m1 n l) : LevelCorrect g m2 n l := by
  obtain ⟨h0, h1⟩ := h
  refine ⟨h0, fun hne => ?_⟩
  obtain ⟨hsome, hval⟩ := h1 hne
  constructor
  · intro d hd
    obtain ⟨v, hv⟩ := Option.isSome_iff_exists.mp (hsome d hd)
    rw [hmono d v hv]
    rfl
  · rw [hval]
    congr 1
    congr 1
    apply List.map_congr_left
    intro d hd
    obtain ⟨v, hv⟩ := Option.isSome_iff_exists.mp (hsome d hd)
    rw [hv, hmono d v hv]

theorem deps_subset_nodeIds (g : Graph) (hWF : WellFormed g) (m : NodeId) :
    ∀ d ∈ getNodeDependencies g m, d ∈ g.nodeIds := by
  intro d hd
  unfold getNodeDependencies at hd
  obtain ⟨c, hc, rfl⟩ := List.mem_map.mp hd
  exact (hWF c (List.mem_of_mem_filter hc)).1

theorem lookupA_append_single_ne {α : Type} (m : List (NodeId × α)) (k n : NodeId)
    (w : α) (hkn : k ≠ n) : lookupA (m ++ [(n, w)]) k = lookupA m k := by
  rw [lookupA_append]
  cases h : lookupA m k with
  | some v => rfl
  | none =>
    show lookupA [(n, w)] k = none
    simp only [lookupA]
    rw [if_neg (fun hco => hkn hco.symm)]

/-- Postcondition of a successful `calculateLevel` call. -/
structure CalcLevelPost (g : Graph) (n : NodeId) (s : LevelState) (l : Nat)
    (sF : LevelState) : Prop where
  visMono : ∀ x ∈ s.visited, x ∈ sF.visited
  memoExt : ∃ Δ, sF.memo = s.memo ++ Δ
  newNotVisited : ∀ k, (lookupA sF.memo k).isSome = true →
    (lookupA s.memo k).isSome = true ∨ k ∉ s.visited
  memoSelf : lookupA sF.memo n = some l
  visNodup : s.visited.Nodup → sF.visited.Nodup
  visLen : s.visited.Nodup → s.visited.length ≤ sF.visited.length
  keysNodup : (memoKeys s.memo).Nodup → (memoKeys sF.memo).Nodup
  stackEq : s.visited.Nodup → trueStack sF = trueStack s
  memoInvP : MemoInv g s.memo → MemoInv g sF.memo
  visUniv : (∀ x ∈ s.visited, x ∈ graphUniverse g) → n ∈ graphUniverse g →
    ∀ x ∈ sF.visited, x ∈ graphUniverse g
  visIds : WellFormed g → n ∈ g.nodeIds → (∀ x ∈ s.visited, x ∈ g.nodeIds) →
    ∀ x ∈ sF.visited, x ∈ g.nodeIds
  keysIds : WellFormed g → n ∈ g.nodeIds → (∀ k ∈ memoKeys s.memo, k ∈ g.nodeIds) →
    ∀ k ∈ memoKeys sF.memo, k ∈ g.nodeIds

/-- Postcondition of a successful dependency-loop run. -/
structure CalcLevelsPost (g : Graph) (ds : List NodeId) (s : LevelState)
    (ls : List Nat) (sF : LevelState) : Prop where
  visMono : ∀ x ∈ s.visited, x ∈ sF.visited
  memoExt : ∃ Δ, sF.memo = s.memo ++ Δ
  newNotVisited : ∀ k, (lookupA sF.memo k).isSome = true →
    (lookupA s.memo k).isSome = true ∨ k ∉ s.visited
  visNodup : s.visited.Nodup → sF.visited.Nodup
  visLen : s.visited.Nodup → s.visited.length ≤ sF.visited.length
  keysNodup : (memoKeys s.memo).Nodup → (memoKeys sF.memo).Nodup
  stackEq : s.visited.Nodup → trueStack sF = trueStack s
  memoInvP : MemoInv g s.memo → MemoInv g sF.memo
  visUniv : (∀ x ∈ s.visited, x ∈ graphUniverse g) → (∀ d ∈ ds, d ∈ graphUniverse g) →
    ∀ x ∈ sF.visited, x ∈ graphUniverse g
  visIds : WellFormed g → (∀ d ∈ ds, d ∈ g.nodeIds) →
    (∀ x ∈ s.visited, x ∈ g.nodeIds) → ∀ x ∈ sF.visited, x ∈ g.nodeIds
  keysIds : WellFormed g → (∀ d ∈ ds, d ∈ g.nodeIds) →
    (∀ k ∈ memoKeys s.memo, k ∈ g.nodeIds) → ∀ k ∈ memoKeys sF.memo, k ∈ g.nodeIds
  levelsEq : ls = ds.map (fun d => (lookupA sF.memo d).getD 0)
  levelsSome : ∀ d ∈ ds, (lookupA sF.memo d).isSome = true

def CalcLevelOK (g : Graph) (fuel : Nat) : Prop :=
  ∀ n s l sF, calcLevel g fuel n s = .ok (l, sF) → CalcLevelPost g n s l sF

def CalcLevelsOK (g : Graph) (fuel : Nat) : Prop :=
  ∀ ds s ls sF, calcLevels g fuel ds s = .ok (ls, sF) → CalcLevelsPost g ds s ls sF

theorem calcLevelsOK_of (g : Graph) (fuel : Nat) (hN : CalcLevelOK g fuel) :
    CalcLevelsOK g fuel := by
  intro ds
  induction ds with
  | nil =>
    intro s ls sF hok
    rw [calcLevels_nil] at hok
    obtain ⟨rfl, rfl⟩ : ([] : List Nat) = ls ∧ s = sF := by simpa using hok
    exact {
      visMono := fun x hx => hx
      memoExt := ⟨[], by simp⟩
      newNotVisited := fun k hk => Or.inl hk
      visNodup := id
      visLen := fun _ => le_refl _
      keysNodup := id
      stackEq := fun _ => rfl
      memoInvP := id
      visUniv := fun hs _ => hs
      visIds := fun _ _ hs => hs
      keysIds := fun _ _ hk => hk
      levelsEq := by simp
      levelsSome := by simp }
  | cons d rest ih =>
    intro s ls sF hok
    rw [calcLevels_cons] at hok
    cases hv : calcLevel g fuel d s with
    | error e => rw [hv] at hok; simp at hok
    | ok p =>
      obtain ⟨l1, s1⟩ := p
      rw [hv] at hok
      dsimp only at hok
      cases hr : calcLevels g fuel rest s1 with
      | error e => rw [hr] at hok; simp at hok
      | ok q =>
        obtain ⟨ls1, s2⟩ := q
        rw [hr] at hok
        obtain ⟨rfl, rfl⟩ : l1 :: ls1 = ls ∧ s2 = sF := by simpa using hok
        have P1 := hN d s l1 s1 hv
        have P2 := ih s1 ls1 s2 hr
        obtain ⟨d1, hd1⟩ := P1.memoExt
        obtain ⟨d2, hd2⟩ := P2.memoExt
        have hds : lookupA s2.memo d = some l1 := by
          rw [hd2]
          exact lookupA_mono_append _ _ _ _ P1.memoSelf
        refine {
          visMono := fun x hx => P2.visMono x (P1.visMono x hx)
          memoExt := ⟨d1 ++ d2, by rw [hd2, hd1, List.append_assoc]⟩
          newNotVisited := ?_
          visNodup := fun h => P2.visNodup (P1.visNodup h)
          visLen := fun h => le_trans (P1.visLen h) (P2.visLen (P1.visNodup h))
          keysNodup := fun h => P2.keysNodup (P1.keysNodup h)
          stackEq := fun h => (P2.stackEq (P1.visNodup h)).trans (P1.stackEq h)
          memoInvP := fun h => P2.memoInvP (P1.memoInvP h)
          visUniv := ?_
          visIds := ?_
          keysIds := ?_
          levelsEq := ?_
          levelsSome := ?_ }
        · intro k hk
          rcases P2.newNotVisited k hk with hk1 | hk1
          · rcases P1.newNotVisited k hk1 with h2 | h2
            · exact Or.inl h2
            · exact Or.inr h2
          · exact Or.inr (fun hco => hk1 (P1.visMono k hco))
        · intro hs hdall x hx
          exact P2.visUniv (P1.visUniv hs (hdall d (List.mem_cons_self d rest)))
            (fun d3 hd3 => hdall d3 (List.mem_cons_of_mem d hd3)) x hx
        · intro hWF hdall hs x hx
          exact P2.visIds hWF (fun d3 hd3 => hdall d3 (List.mem_cons_of_mem d hd3))
            (P1.visIds hWF (hdall d (List.mem_cons_self d rest)) hs) x hx
        · intro hWF hdall hk x hx
          exact P2.keysIds hWF (fun d3 hd3 => hdall d3 (List.mem_cons_of_mem d hd3))
            (P1.keysIds hWF (hdall d (List.mem_cons_self d rest)) hk) x hx
        · rw [List.map_cons, hds, Option.getD_some, ← P2.levelsEq]
        · intro d3 hd3
          rcases List.mem_cons.mp hd3 with rfl | hd3
          · rw [hds]
            rfl
          · exact P2.levelsSome d3 hd3

theorem calcLevelOK_succ (g : Graph) (fuel : Nat) (hD : CalcLevelsOK g fuel) :
    CalcLevelOK g (fuel + 1) := by
  intro n s l sF hok
  rw [calcLevel_succ] at hok
  cases hm : lookupA s.memo n with
  | some l0 =>
    rw [hm] at hok
    dsimp only at hok
    obtain ⟨rfl, rfl⟩ : l0 = l ∧ s = sF := by simpa using hok
    exact {
      visMono := fun x hx => hx
      memoExt := ⟨[], by simp⟩
      newNotVisited := fun k hk => Or.inl hk
      memoSelf := hm
      visNodup := id
      visLen := fun _ => le_refl _
      keysNodup := id
      stackEq := fun _ => rfl
      memoInvP := id
      visUniv := fun hs _ => hs
      visIds := fun _ _ hs => hs
      keysIds := fun _ _ hk => hk }
  | none =>
    rw [hm] at hok
    dsimp only at hok
    by_cases h2 : n ∈ s.visited
    · rw [if_pos h2] at hok
      simp at hok
    rw [if_neg h2] at hok
    have hnotkey : n ∉ memoKeys s.memo := (lookupA_eq_none_iff s.memo n).mp hm
    cases hdeps : getNodeDependencies g n with
    | nil =>
      rw [hdeps] at hok
      dsimp only at hok
      obtain ⟨rfl, rfl⟩ :
          0 = l ∧ (⟨s.memo ++ [(n, 0)], n :: s.visited⟩ : LevelState) = sF := by
        simpa using hok
      have hself : lookupA (s.memo ++ [(n, 0)]) n = some 0 := by
        rw [lookupA_append, hm]
        simp [Option.orElse, lookupA]
      refine {
        visMono := fun x hx => List.mem_cons_of_mem n hx
        memoExt := ⟨[(n, 0)], rfl⟩
        newNotVisited := ?_
        memoSelf := hself
        visNodup := fun h => List.nodup_cons.mpr ⟨h2, h⟩
        visLen := fun _ => by simp
        keysNodup := ?_
        stackEq := ?_
        memoInvP := ?_
        visUniv := ?_
        visIds := ?_
        keysIds := ?_ }
      · intro k hk
        by_cases hkn : k = n
        · subst hkn
          exact Or.inr h2
        · rw [show (⟨s.memo ++ [(n, 0)], n :: s.visited⟩ : LevelState).memo
              = s.memo ++ [(n, 0)] from rfl,
            lookupA_append_single_ne s.memo k n 0 hkn] at hk
          exact Or.inl hk
      · intro h
        show (memoKeys (s.memo ++ [(n, 0)])).Nodup
        unfold memoKeys
        rw [List.map_append]
        refine List.nodup_append.mpr ⟨h, by simp, ?_⟩
        intro a ha hb
        have : a = n := by simpa using hb
        subst this
        exact hnotkey ha
      · intro _
        show (n :: s.visited).filter
            (fun v => (lookupA (s.memo ++ [(n, 0)]) v).isNone) = trueStack s
        rw [List.filter_cons]
        rw [hself]
        simp only [Option.isNone_some, Bool.false_eq_true, if_false]
        apply List.filter_congr
        intro x hx
        have hxn : x ≠ n := fun hco => h2 (hco ▸ hx)
        rw [lookupA_append_single_ne s.memo x n 0 hxn]
      · intro hInv p hp
        rcases List.mem_append.mp hp with hp | hp
        · exact LevelCorrect.mono g s.memo _ p.1 p.2
            (fun k v hv => lookupA_mono_append s.memo [(n, 0)] k v hv)
            (hInv p hp)
        · have : p = (n, 0) := by simpa using hp
          subst this
          exact ⟨fun _ => rfl, fun hne => absurd hdeps hne⟩
      · intro hs hn x hx
        rcases List.mem_cons.mp hx with rfl | hx
        · exact hn
        · exact hs x hx
      · intro _ hn hs x hx
        rcases List.mem_cons.mp hx with rfl | hx
        · exact hn
        · exact hs x hx
      · intro _ hn hk x hx
        have : x ∈ memoKeys s.memo ++ [n] := by
          unfold memoKeys at hx ⊢
          rw [List.map_append] at hx
          simpa using hx
        rcases List.mem_append.mp this with hx2 | hx2
        · exact hk x hx2
        · have : x = n := by simpa using hx2
          subst this
          exact hn
    | cons d rest =>
      rw [hdeps] at hok
      dsimp only at hok
      cases hsub : calcLevels g fuel (d :: rest) ⟨s.memo, n :: s.visited⟩ with
      | error e =>
        rw [hsub] at hok
        simp at hok
      | ok q =>
        obtain ⟨ls, s2⟩ := q
        rw [hsub] at hok
        dsimp only at hok
        obtain ⟨rfl, rfl⟩ :
            ls.foldl Nat.max 0 + 1 = l ∧
              (⟨s2.memo ++ [(n, ls.foldl Nat.max 0 + 1)], s2.visited.erase n⟩
                : LevelState) = sF := by
          simpa using hok
        have P := hD (d :: rest) ⟨s.memo, n :: s.visited⟩ ls s2 hsub
        have hfresh : lookupA s2.memo n = none := by
          cases hx : lookupA s2.memo n with
          | none => rfl
          | some v =>
            rcases P.newNotVisited n (by rw [hx]; rfl) with hco | hco
            · rw [show (⟨s.memo, n :: s.visited⟩ : LevelState).memo = s.memo from rfl,
                hm] at hco
              simp at hco
            · exact absurd (List.mem_cons_self n s.visited) hco
        have hfreshkey : n ∉ memoKeys s2.memo := (lookupA_eq_none_iff s2.memo n).mp hfresh
        have hself : lookupA (s2.memo ++ [(n, ls.foldl Nat.max 0 + 1)]) n
            = some (ls.foldl Nat.max 0 + 1) := by
          rw [lookupA_append, hfresh]
          simp [Option.orElse, lookupA]
        have hdsub : ∀ d2 ∈ getNodeDependencies g n, d2 ∈ graphUniverse g :=
          deps_subset_universe g n
        refine {
          visMono := ?_
          memoExt := ?_
          newNotVisited := ?_
          memoSelf := hself
          visNodup := ?_
          visLen := ?_
          keysNodup := ?_
          stackEq := ?_
          memoInvP := ?_
          visUniv := ?_
          visIds := ?_
          keysIds := ?_ }
        · intro x hx
          have hxn : x ≠ n := fun hco => h2 (hco ▸ hx)
          show x ∈ s2.visited.erase n
          rw [List.mem_erase_of_ne hxn]
          exact P.visMono x (List.mem_cons_of_mem n hx)
        · obtain ⟨Δ, hΔ⟩ := P.memoExt
          exact ⟨Δ ++ [(n, ls.foldl Nat.max 0 + 1)], by
            show s2.memo ++ [(n, ls.foldl Nat.max 0 + 1)] = s.memo ++ _
            rw [hΔ, List.append_assoc]⟩
        · intro k hk
          by_cases hkn : k = n
          · subst hkn
            exact Or.inr h2
          · rw [show (⟨s2.memo ++ [(n, ls.foldl Nat.max 0 + 1)], s2.visited.erase n⟩
                  : LevelState).memo = s2.memo ++ [(n, ls.foldl Nat.max 0 + 1)] from rfl,
              lookupA_append_single_ne s2.memo k n _ hkn] at hk
            rcases P.newNotVisited k hk with hco | hco
            · exact Or.inl hco
            · exact Or.inr (fun hmem => hco (List.mem_cons_of_mem n hmem))
        · intro h
          exact (P.visNodup (List.nodup_cons.mpr ⟨h2, h⟩)).erase n
        · intro h
          have hlen1 := P.visLen (List.nodup_cons.mpr ⟨h2, h⟩)
          simp only [List.length_cons] at hlen1
          show s.visited.length ≤ (s2.visited.erase n).length
          by_cases hmem : n ∈ s2.visited
          · rw [List.length_erase_of_mem hmem]
            omega
          · rw [List.erase_of_not_mem hmem]
            omega
        · intro h
          show (memoKeys (s2.memo ++ [(n, ls.foldl Nat.max 0 + 1)])).Nodup
          unfold memoKeys
          rw [List.map_append]
          refine List.nodup_append.mpr ⟨P.keysNodup h, by simp, ?_⟩
          intro a ha hb
          have : a = n := by simpa using hb
          subst this
          exact hfreshkey ha
        · intro h
          have hnd1 : (n :: s.visited).Nodup := List.nodup_cons.mpr ⟨h2, h⟩
          have hnd2 : s2.visited.Nodup := P.visNodup hnd1
          have hstack2 : trueStack s2 = trueStack ⟨s.memo, n :: s.visited⟩ :=
            P.stackEq hnd1
          have hstack1 : trueStack (⟨s.memo, n :: s.visited⟩ : LevelState)
              = n :: trueStack s := by
            show (n :: s.visited).filter (fun v => (lookupA s.memo v).isNone)
              = n :: s.visited.filter (fun v => (lookupA s.memo v).isNone)
            rw [List.filter_cons]
            rw [hm]
            simp
          show (s2.visited.erase n).filter
              (fun v => (lookupA (s2.memo ++ [(n, ls.foldl Nat.max 0 + 1)]) v).isNone)
            = trueStack s
          rw [List.Nodup.erase_eq_filter hnd2 n, List.filter_filter]
          have hcongr : ∀ x ∈ s2.visited,
              ((lookupA (s2.memo ++ [(n, ls.foldl Nat.max 0 + 1)]) x).isNone
                && (x != n))
              = ((x != n) && (lookupA s2.memo x).isNone) := by
            intro x hx
            by_cases hxn : x = n
            · subst hxn
              simp
            · rw [lookupA_append_single_ne s2.memo x n _ hxn]
              rw [Bool.and_comm]
          rw [List.filter_congr hcongr]
          rw [← List.filter_filter]
          have : s2.visited.filter (fun v => (lookupA s2.memo v).isNone)
              = trueStack s2 := rfl
          rw [this, hstack2, hstack1]
          rw [List.filter_cons]
          simp only [bne_self_eq_false, Bool.false_eq_true, if_false]
          apply List.filter_eq_self.mpr
          intro x hx
          have hxvis : x ∈ s.visited := List.mem_of_mem_filter hx
          have hxn : x ≠ n := fun hco => h2 (hco ▸ hxvis)
          simpa using hxn
        · intro hInv
          have hInv2 : MemoInv g s2.memo := P.memoInvP hInv
          intro p hp
          rcases List.mem_append.mp hp with hp | hp
          · exact LevelCorrect.mono g s2.memo _ p.1 p.2
              (fun k v hv => lookupA_mono_append s2.memo _ k v hv)
              (hInv2 p hp)
          · have : p = (n, ls.foldl Nat.max 0 + 1) := by simpa using hp
            subst this
            refine ⟨fun h0 => absurd h0 (by rw [hdeps]; simp), fun _ => ⟨?_, ?_⟩⟩
            · intro d2 hd2
              rw [hdeps] at hd2
              obtain ⟨v, hv⟩ := Option.isSome_iff_exists.mp (P.levelsSome d2 hd2)
              rw [lookupA_mono_append s2.memo _ d2 v hv]
              rfl
            · have hmapeq : (getNodeDependencies g n).map
                  (fun d2 => (lookupA (s2.memo ++ [(n, ls.foldl Nat.max 0 + 1)]) d2).getD 0)
                  = (getNodeDependencies g n).map
                      (fun d2 => (lookupA s2.memo d2).getD 0) := by
                apply List.map_congr_left
                intro d2 hd2
                rw [hdeps] at hd2
                obtain ⟨v, hv⟩ := Option.isSome_iff_exists.mp (P.levelsSome d2 hd2)
                rw [hv, lookupA_mono_append s2.memo _ d2 v hv]
              rw [hmapeq, hdeps, ← P.levelsEq]
        · intro hs hn x hx
          have hx2 : x ∈ s2.visited := List.mem_of_mem_erase hx
          refine P.visUniv ?_ ?_ x hx2
          · intro y hy
            rcases List.mem_cons.mp hy with rfl | hy
            · exact hn
            · exact hs y hy
          · intro d2 hd2
            exact hdsub d2 (hdeps ▸ hd2)
        · intro hWF hn hs x hx
          have hx2 : x ∈ s2.visited := List.mem_of_mem_erase hx
          refine P.visIds hWF ?_ ?_ x hx2
          · intro d2 hd2
            exact deps_subset_nodeIds g hWF n d2 (hdeps ▸ hd2)
          · intro y hy
            rcases List.mem_cons.mp hy with rfl | hy
            · exact hn
            · exact hs y hy
        · intro hWF hn hk x hx
          have : x ∈ memoKeys s2.memo ++ [n] := by
            unfold memoKeys at hx ⊢
            rw [show (⟨s2.memo ++ [(n, ls.foldl Nat.max 0 + 1)], s2.visited.erase n⟩
                : LevelState).memo = s2.memo ++ [(n, ls.foldl Nat.max 0 + 1)] from rfl,
              List.map_append] at hx
            simpa using hx
          rcases List.mem_append.mp this with hx2 | hx2
          · refine P.keysIds hWF ?_ hk x hx2
            intro d2 hd2
            exact deps_subset_nodeIds g hWF n d2 (hdeps ▸ hd2)
          · have : x = n := by simpa using hx2
            subst this
            exact hn

theorem calcLevelOK (g : Graph) : ∀ fuel, CalcLevelOK g fuel := by
  intro fuel
  induction fuel with
  | zero =>
    intro n s l sF hok
    rw [calcLevel_zero] at hok
    simp at hok
  | succ fuel ih => exact calcLevelOK_succ g fuel (calcLevelsOK_of g fuel ih)

theorem calcLevelsOK (g : Graph) (fuel : Nat) : CalcLevelsOK g fuel :=
  calcLevelsOK_of g fuel (calcLevelOK g fuel)

/-! ### `buildExecutionLevels` throws only fuel or cyclic errors, and never fuel -/

def CalcLevelErr (g : Graph) (fuel : Nat) : Prop :=
  ∀ n s e, calcLevel g fuel n s = .error e → e = .fuel ∨ ∃ m, e = .cyclic m

def CalcLevelsErr (g : Graph) (fuel : Nat) : Prop :=
  ∀ ds s e, calcLevels g fuel ds s = .error e → e = .fuel ∨ ∃ m, e = .cyclic m

theorem calcLevelsErr_of (g : Graph) (fuel : Nat) (hN : CalcLevelErr g fuel) :
    CalcLevelsErr g fuel := by
  intro ds
  induction ds with
  | nil =>
    intro s e hcon
    rw [calcLevels_nil] at hcon
    simp at hcon
  | cons d rest ih =>
    intro s e hcon
    rw [calcLevels_cons] at hcon
    cases hv : calcLevel g fuel d s with
    | error e2 =>
      rw [hv] at hcon
      have : e2 = e := by simpa using hcon
      subst this
      exact hN d s e2 hv
    | ok p =>
      obtain ⟨l, s1⟩ := p
      rw [hv] at hcon
      dsimp only at hcon
      cases hr : calcLevels g fuel rest s1 with
      | error e2 =>
        rw [hr] at hcon
        have : e2 = e := by simpa using hcon
        subst this
        exact ih s1 e2 hr
      | ok q =>
        rw [hr] at hcon
        simp at hcon

theorem calcLevelErr (g : Graph) : ∀ fuel, CalcLevelErr g fuel := by
  intro fuel
  induction fuel with
  | zero =>
    intro n s e hcon
    rw [calcLevel_zero] at hcon
    have : ExecError.fuel = e := by simpa using hcon
    exact Or.inl this.symm
  | succ fuel ih =>
    intro n s e hcon
    rw [calcLevel_succ] at hcon
    cases hm : lookupA s.memo n with
    | some l =>
      rw [hm] at hcon
      simp at hcon
    | none =>
      rw [hm] at hcon
      dsimp only at hcon
      by_cases h2 : n ∈ s.visited
      · rw [if_pos h2] at hcon
        have : ExecError.cyclic n = e := by simpa using hcon
        exact Or.inr ⟨n, this.symm⟩
      rw [if_neg h2] at hcon
      cases hdeps : getNodeDependencies g n with
      | nil =>
        rw [hdeps] at hcon
        simp at hcon
      | cons d rest =>
        rw [hdeps] at hcon
        dsimp only at hcon
        cases hsub : calcLevels g fuel (d :: rest) ⟨s.memo, n :: s.visited⟩ with
        | error e2 =>
          rw [hsub] at hcon
          have : e2 = e := by simpa using hcon
          subst this
          exact calcLevelsErr_of g fuel ih _ _ e2 hsub
        | ok q =>
          obtain ⟨ls, s2⟩ := q
          rw [hsub] at hcon
          simp at hcon

theorem calcAllLevels_err (g : Graph) (fuel : Nat) :
    ∀ ns s e, calcAllLevels g fuel ns s = .error e →
      e = .fuel ∨ ∃ m, e = .cyclic m := by
  intro ns
  induction ns with
  | nil =>
    intro s e hcon
    simp [calcAllLevels] at hcon
  | cons n ns ih =>
    intro s e hcon
    simp only [calcAllLevels] at hcon
    cases hv : calcLevel g fuel n s with
    | error e2 =>
      rw [hv] at hcon
      have : e2 = e := by simpa using hcon
      subst this
      exact calcLevelErr g fuel n s e2 hv
    | ok p =>
      obtain ⟨l, s1⟩ := p
      rw [hv] at hcon
      exact ih s1 e hcon

def CalcLevelFuel (g : Graph) (fuel : Nat) : Prop :=
  ∀ n s,
    s.visited.Nodup → (∀ x ∈ s.visited, x ∈ graphUniverse g) →
    n ∈ graphUniverse g →
    (graphUniverse g).length + 1 ≤ fuel + s.visited.length →
    calcLevel g fuel n s ≠ .error .fuel

def CalcLevelsFuel (g : Graph) (fuel : Nat) : Prop :=
  ∀ ds s,
    s.visited.Nodup → (∀ x ∈ s.visited, x ∈ graphUniverse g) →
    (∀ d ∈ ds, d ∈ graphUniverse g) →
    (graphUniverse g).length + 1 ≤ fuel + s.visited.length →
    calcLevels g fuel ds s ≠ .error .fuel

theorem calcLevelsFuel_of (g : Graph) (fuel : Nat) (hN : CalcLevelFuel g fuel) :
    CalcLevelsFuel g fuel := by
  intro ds
  induction ds with
  | nil =>
    intro s _ _ _ _ hcon
    rw [calcLevels_nil] at hcon
    simp at hcon
  | cons d rest ih =>
    intro s hnd hsub hds hbound hcon
    rw [calcLevels_cons] at hcon
    cases hv : calcLevel g fuel d s with
    | error e =>
      rw [hv] at hcon
      have : e = ExecError.fuel := by simpa using hcon
      subst this
      exact hN d s hnd hsub (hds d (List.mem_cons_self d rest)) hbound hv
    | ok p =>
      obtain ⟨l, s1⟩ := p
      rw [hv] at hcon
      dsimp only at hcon
      have P := calcLevelOK g fuel d s l s1 hv
      cases hr : calcLevels g fuel rest s1 with
      | error e =>
        rw [hr] at hcon
        have : e = ExecError.fuel := by simpa using hcon
        subst this
        refine ih s1 (P.visNodup hnd) (P.visUniv hsub
          (hds d (List.mem_cons_self d rest))) ?_ ?_ hr
        · exact fun d2 hd2 => hds d2 (List.mem_cons_of_mem d hd2)
        · have := P.visLen hnd
          omega
      | ok q =>
        rw [hr] at hcon
        simp at hcon

theorem calcLevelFuel (g : Graph) : ∀ fuel, CalcLevelFuel g fuel := by
  intro fuel
  induction fuel with
  | zero =>
    intro n s hnd hsub _ hbound
    have hle : s.visited.length ≤ (graphUniverse g).length :=
      (List.subperm_of_subset hnd (fun x hx => hsub x hx)).length_le
    exact absurd hbound (by omega)
  | succ fuel ih =>
    intro n s hnd hsub hn hbound hcon
    rw [calcLevel_succ] at hcon
    cases hm : lookupA s.memo n with
    | some l =>
      rw [hm] at hcon
      simp at hcon
    | none =>
      rw [hm] at hcon
      dsimp only at hcon
      by_cases h2 : n ∈ s.visited
      · rw [if_pos h2] at hcon
        simp at hcon
      rw [if_neg h2] at hcon
      cases hdeps : getNodeDependencies g n with
      | nil =>
        rw [hdeps] at hcon
        simp at hcon
      | cons d rest =>
        rw [hdeps] at hcon
        dsimp only at hcon
        cases hsub2 : calcLevels g fuel (d :: rest) ⟨s.memo, n :: s.visited⟩ with
        | error e =>
          rw [hsub2] at hcon
          have : e = ExecError.fuel := by simpa using hcon
          subst this
          refine calcLevelsFuel_of g fuel ih (d :: rest) ⟨s.memo, n :: s.visited⟩
            (List.nodup_cons.mpr ⟨h2, hnd⟩) ?_ ?_ ?_ hsub2
          · intro x hx
            rcases List.mem_cons.mp hx with rfl | hx
            · exact hn
            · exact hsub x hx
          · intro d2 hd2
            exact deps_subset_universe g n d2 (hdeps ▸ hd2)
          · simp only [List.length_cons]
            omega
        | ok q =>
          obtain ⟨ls, s2⟩ := q
          rw [hsub2] at hcon
          simp at hcon

theorem calcAllLevels_no_fuel (g : Graph) :
    ∀ ns s,
      s.visited.Nodup → (∀ x ∈ s.visited, x ∈ graphUniverse g) →
      (∀ n ∈ ns, n ∈ graphUniverse g) →
      (graphUniverse g).length + 1 ≤ execFuel g + s.visited.length →
      calcAllLevels g (execFuel g) ns s ≠ .error .fuel := by
  intro ns
  induction ns with
  | nil =>
    intro s _ _ _ _ hcon
    simp [calcAllLevels] at hcon
  | cons n ns ih =>
    intro s hnd hsub hns hbound hcon
    simp only [calcAllLevels] at hcon
    cases hv : calcLevel g (execFuel g) n s with
    | error e =>
      rw [hv] at hcon
      have : e = ExecError.fuel := by simpa using hcon
      subst this
      exact calcLevelFuel g (execFuel g) n s hnd hsub
        (hns n (List.mem_cons_self n ns)) hbound hv
    | ok p =>
      obtain ⟨l, s1⟩ := p
      rw [hv] at hcon
      have P := calcLevelOK g (execFuel g) n s l s1 hv
      refine ih s1 (P.visNodup hnd)
        (P.visUniv hsub (hns n (List.mem_cons_self n ns)))
        (fun x hx => hns x (List.mem_cons_of_mem n hx)) ?_ hcon
      have := P.visLen hnd
      omega

/-- Postcondition of a successful run of the `calculateLevel` root loop. -/
structure CalcAllPost (g : Graph) (ns : List NodeId) (s sF : LevelState) : Prop where
  memoExt : ∃ Δ, sF.memo = s.memo ++ Δ
  visMono : ∀ x ∈ s.visited, x ∈ sF.visited
  visNodup : s.visited.Nodup → sF.visited.Nodup
  keysNodup : (memoKeys s.memo).Nodup → (memoKeys sF.memo).Nodup
  memoInvP : MemoInv g s.memo → MemoInv g sF.memo
  memoSome : ∀ n ∈ ns, (lookupA sF.memo n).isSome = true
  visUniv : (∀ x ∈ s.visited, x ∈ graphUniverse g) → (∀ n ∈ ns, n ∈ graphUniverse g) →
    ∀ x ∈ sF.visited, x ∈ graphUniverse g
  keysIds : WellFormed g → (∀ n ∈ ns, n ∈ g.nodeIds) →
    (∀ k ∈ memoKeys s.memo, k ∈ g.nodeIds) → ∀ k ∈ memoKeys sF.memo, k ∈ g.nodeIds
  visIds : WellFormed g → (∀ n ∈ ns, n ∈ g.nodeIds) →
    (∀ x ∈ s.visited, x ∈ g.nodeIds) → ∀ x ∈ sF.visited, x ∈ g.nodeIds

theorem calcAllLevels_ok (g : Graph) (fuel : Nat) :
    ∀ ns s sF, calcAllLevels g fuel ns s = .ok sF → CalcAllPost g ns s sF := by
  intro ns
  induction ns with
  | nil =>
    intro s sF hok
    have : s = sF := by simpa [calcAllLevels] using hok
    subst this
    exact {
      memoExt := ⟨[], by simp⟩
      visMono := fun x hx => hx
      visNodup := id
      keysNodup := id
      memoInvP := id
      memoSome := by simp
      visUniv := fun hs _ => hs
      keysIds := fun _ _ hk => hk
      visIds := fun _ _ hs => hs }
  | cons n ns ih =>
    intro s sF hok
    simp only [calcAllLevels] at hok
    cases hv : calcLevel g fuel n s with
    | error e =>
      rw [hv] at hok
      simp at hok
    | ok p =>
      obtain ⟨l, s1⟩ := p
      rw [hv] at hok
      have P1 := calcLevelOK g fuel n s l s1 hv
      have P2 := ih s1 sF hok
      obtain ⟨d1, hd1⟩ := P1.memoExt
      obtain ⟨d2, hd2⟩ := P2.memoExt
      refine {
        memoExt := ⟨d1 ++ d2, by rw [hd2, hd1, List.append_assoc]⟩
        visMono := fun x hx => P2.visMono x (P1.visMono x hx)
        visNodup := fun h => P2.visNodup (P1.visNodup h)
        keysNodup := fun h => P2.keysNodup (P1.keysNodup h)
        memoInvP := fun h => P2.memoInvP (P1.memoInvP h)
        memoSome := ?_
        visUniv := ?_
        keysIds := ?_
        visIds := ?_ }
      · intro m hm
        rcases List.mem_cons.mp hm with rfl | hm
        · rw [hd2, lookupA_mono_append _ _ _ _ P1.memoSelf]
          rfl
        · exact P2.memoSome m hm
      · intro hs hns x hx
        exact P2.visUniv (P1.visUniv hs (hns n (List.mem_cons_self n ns)))
          (fun m hm => hns m (List.mem_cons_of_mem n hm)) x hx
      · intro hWF hns hk x hx
        exact P2.keysIds hWF (fun m hm => hns m (List.mem_cons_of_mem n hm))
          (P1.keysIds hWF (hns n (List.mem_cons_self n ns)) hk) x hx
      · intro hWF hns hs x hx
        exact P2.visIds hWF (fun m hm => hns m (List.mem_cons_of_mem n hm))
          (P1.visIds hWF (hns n (List.mem_cons_self n ns)) hs) x hx

/-! ### `foldl Nat.max` facts -/

theorem foldl_max_acc (l : List Nat) : ∀ a, l.foldl Nat.max a = a.max (l.foldl Nat.max 0) := by
  induction l with
  | nil => intro a; simp
  | cons x rest ih =>
    intro a
    show rest.foldl Nat.max (a.max x) = a.max ((x :: rest).foldl Nat.max 0)
    rw [ih (a.max x)]
    show a.max x ⊔ rest.foldl Nat.max 0 = a.max (rest.foldl Nat.max (Nat.max 0 x))
    rw [ih (Nat.max 0 x)]
    simp [Nat.max_assoc]

theorem le_foldl_max (l : List Nat) (x : Nat) (hx : x ∈ l) : x ≤ l.foldl Nat.max 0 := by
  induction l with
  | nil => simp at hx
  | cons y rest ih =>
    show x ≤ rest.foldl Nat.max (Nat.max 0 y)
    rw [foldl_max_acc]
    rcases List.mem_cons.mp hx with rfl | hx
    · simp
    · exact le_trans (ih hx) (le_max_right _ _)

theorem foldl_max_mem (l : List Nat) (hne : l ≠ []) : l.foldl Nat.max 0 ∈ l := by
  induction l with
  | nil => exact absurd rfl hne
  | cons x rest ih =>
    show rest.foldl Nat.max (Nat.max 0 x) ∈ x :: rest
    rw [foldl_max_acc]
    cases rest with
    | nil => simp
    | cons y t =>
      have hmem := ih (by simp)
      rcases Nat.le_total (Nat.max 0 x) ((y :: t).foldl Nat.max 0) with h | h
      · have he : (Nat.max 0 x).max ((y :: t).foldl Nat.max 0) = (y :: t).foldl Nat.max 0 :=
          Nat.max_eq_right h
        rw [he]
        exact List.mem_cons_of_mem x hmem
      · have he : (Nat.max 0 x).max ((y :: t).foldl Nat.max 0) = Nat.max 0 x :=
          Nat.max_eq_left h
        rw [he]
        simp

/-! ### A fully memoized, locally correct memo excludes dependency cycles -/

theorem memo_step_lt (g : Graph) (memo : List (NodeId × Nat))
    (hInv : MemoInv g memo) (hnod : (memoKeys memo).Nodup)
    (hsome : ∀ n ∈ g.nodeIds, (lookupA memo n).isSome = true)
    (a b : NodeId) (hedge : depEdge g a b) (hb : b ∈ g.nodeIds) :
    (lookupA memo a).getD 0 < (lookupA memo b).getD 0 := by
  obtain ⟨l, hl⟩ := Option.isSome_iff_exists.mp (hsome b hb)
  have hmem : (b, l) ∈ memo := (lookupA_eq_some_iff_mem memo hnod b l).mp hl
  have hLC := hInv (b, l) hmem
  have hne : getNodeDependencies g b ≠ [] := by
    intro hco
    rw [depEdge, hco] at hedge
    simp at hedge
  obtain ⟨-, hval⟩ := hLC.2 hne
  have hle : (lookupA memo a).getD 0 ≤
      ((getNodeDependencies g b).map (fun d => (lookupA memo d).getD 0)).foldl Nat.max 0 :=
    le_foldl_max _ _ (List.mem_map_of_mem _ hedge)
  rw [hl]
  dsimp only at hval
  simp only [Option.getD_some]
  omega

theorem chain_memo_lt (g : Graph) (memo : List (NodeId × Nat))
    (hInv : MemoInv g memo) (hnod : (memoKeys memo).Nodup)
    (hsome : ∀ n ∈ g.nodeIds, (lookupA memo n).isSome = true) :
    ∀ (l : List NodeId) (a b : NodeId),
      List.Chain' (depEdge g) (a :: (l ++ [b])) →
      (∀ v ∈ l ++ [b], v ∈ g.nodeIds) →
      (lookupA memo a).getD 0 < (lookupA memo b).getD 0 := by
  intro l
  induction l with
  | nil =>
    intro a b hch hmem
    exact memo_step_lt g memo hInv hnod hsome a b (List.chain'_cons.mp hch).1
      (hmem b (by simp))
  | cons c l ih =>
    intro a b hch hmem
    have hch2 : List.Chain' (depEdge g) (a :: c :: (l ++ [b])) := hch
    obtain ⟨hac, hcht⟩ := List.chain'_cons.mp hch2
    have h1 := memo_step_lt g memo hInv hnod hsome a c hac
      (hmem c (List.mem_cons_self c _))
    have h2 := ih c b hcht (fun v hv => hmem v (List.mem_cons_of_mem c hv))
    exact lt_trans h1 h2

theorem memoInv_no_cycle (g : Graph) (memo : List (NodeId × Nat))
    (hInv : MemoInv g memo) (hnod : (memoKeys memo).Nodup)
    (hsome : ∀ n ∈ g.nodeIds, (lookupA memo n).isSome = true) :
    ¬ HasCycle g := by
  rintro ⟨n, p, hch, hmem⟩
  have hn : n ∈ g.nodeIds := hmem n (List.mem_cons_self n p)
  have hlt := chain_memo_lt g memo hInv hnod hsome p n n hch ?_
  · omega
  · intro v hv
    rcases List.mem_append.mp hv with hv | hv
    · exact hmem v (List.mem_cons_of_mem n hv)
    · have : v = n := by simpa using hv
      subst this
      exact hn

/-- A graph with a dependency cycle among its nodes makes
`buildExecutionLevels` throw the circular-dependency error. -/
theorem buildExecutionLevels_cyclic_of_hasCycle (g : Graph) (hcyc : HasCycle g) :
    ∃ m, buildExecutionLevels g = .error (.cyclic m) := by
  unfold buildExecutionLevels
  cases h : calcAllLevels g (execFuel g) g.nodeIds ⟨[], []⟩ with
  | ok s =>
    exfalso
    have P := calcAllLevels_ok g (execFuel g) g.nodeIds ⟨[], []⟩ s h
    refine memoInv_no_cycle g s.memo (P.memoInvP ?_) (P.keysNodup ?_) P.memoSome hcyc
    · intro p hp
      simp at hp
    · simp [memoKeys]
  | error e =>
    rcases calcAllLevels_err g (execFuel g) g.nodeIds ⟨[], []⟩ e h with rfl | ⟨m, rfl⟩
    · exact absurd h (calcAllLevels_no_fuel g g.nodeIds ⟨[], []⟩ (by simp) (by simp)
        (fun n hn => nodeIds_subset_universe g n hn) (by simp [execFuel]))
    · exact ⟨m, rfl⟩

end NodeExecutor

/-! ## Claim C1 -/

/-- **C1.** For every executor whose connection graph contains a directed
cycle among the added nodes, both `execute` and `executeParallel` throw a
cyclic-dependency error (as do the underlying `buildExecutionOrder` and
`buildExecutionLevels`), no node is executed, and neither call produces a
(partial) result map — the `Except` value is an `error`, not an `ok` map. -/
theorem executor_cyclic_dependency_aborts :
    ∀ (V : Type) (ex : Executor V) (eid : String)
      (init : List (NodeId × List (PortId × V))),
      HasCycle ex.toGraph →
      (∃ m, NodeExecutor.buildExecutionOrder ex.toGraph = .error (.cyclic m)) ∧
      (∃ m, NodeExecutor.buildExecutionLevels ex.toGraph = .error (.cyclic m)) ∧
      (∃ m, NodeExecutor.execute ex eid init = .error (.cyclic m)) ∧
      (∃ m, NodeExecutor.executeParallel ex eid init = .error (.cyclic m)) ∧
      NodeExecutor.executedNodesSeq ex = [] ∧
      NodeExecutor.executedNodesPar ex = [] := by
  intro V ex eid init hcyc
  obtain ⟨m1, h1⟩ := NodeExecutor.buildExecutionOrder_cyclic_of_hasCycle _ hcyc
  obtain ⟨m2, h2⟩ := NodeExecutor.buildExecutionLevels_cyclic_of_hasCycle _ hcyc
  refine ⟨⟨m1, h1⟩, ⟨m2, h2⟩, ⟨m1, ?_⟩, ⟨m2, ?_⟩, ?_, ?_⟩
  · unfold NodeExecutor.execute
    rw [h1]
  · unfold NodeExecutor.executeParallel
    rw [h2]
  · unfold NodeExecutor.executedNodesSeq
    rw [h1]
  · unfold NodeExecutor.executedNodesPar
    rw [h2]

/-- A do-nothing node used to build concrete executors in witnesses. -/
def plainNode (i : NodeId) : BaseNode Unit :=
  { id := i, name := i, inputs := [], outputs := [],
    executeInternal := fun _ => .ok [] }

/-- Two nodes wired A → B → A. -/
def cycExecutor : Executor Unit :=
  { nodes := [("A", plainNode "A"), ("B", plainNode "B")],
    connections := [⟨"c1", "A", "out", "B", "in"⟩, ⟨"c2", "B", "out", "A", "in"⟩] }

theorem executor_cyclic_dependency_aborts_witness :
    HasCycle cycExecutor.toGraph ∧
    ((∃ m, NodeExecutor.buildExecutionOrder cycExecutor.toGraph = .error (.cyclic m)) ∧
      (∃ m, NodeExecutor.buildExecutionLevels cycExecutor.toGraph = .error (.cyclic m)) ∧
      (∃ m, NodeExecutor.execute cycExecutor "run" [] = .error (.cyclic m)) ∧
      (∃ m, NodeExecutor.executeParallel cycExecutor "run" [] = .error (.cyclic m)) ∧
      NodeExecutor.executedNodesSeq cycExecutor = [] ∧
      NodeExecutor.executedNodesPar cycExecutor = []) :=
  have hcyc : HasCycle cycExecutor.toGraph :=
    ⟨"A", ["B"],
      List.Chain.cons (by decide) (List.Chain.cons (by decide) List.Chain.nil),
      by decide⟩
  ⟨hcyc, executor_cyclic_dependency_aborts Unit cycExecutor "run" [] hcyc⟩

/-! ### A cyclic error of `calculateLevel` exhibits an actual cycle -/

theorem take_append_cons {α : Type} (l1 : List α) (a : α) (l2 : List α) :
    (l1 ++ a :: l2).take (l1.length + 1) = l1 ++ [a] := by
  induction l1 with
  | nil => rfl
  | cons x t ih => simpa using ih

namespace NodeExecutor

theorem trueStack_push (s : LevelState) (n : NodeId)
    (hm : lookupA s.memo n = none) :
    trueStack ⟨s.memo, n :: s.visited⟩ = n :: trueStack s := by
  show (n :: s.visited).filter (fun v => (lookupA s.memo v).isNone) = _
  rw [List.filter_cons, hm]
  simp [trueStack]

/-- A visited, unmemoized node hit again closes a dependency cycle: the
true in-progress stack is a dependency chain, the current node has a
pending edge into its head, and the node occurs in the stack. -/
theorem stack_cycle (g : Graph) (s : LevelState) (n : NodeId)
    (hch : List.Chain' (depEdge g) (trueStack s))
    (hpend : ∀ hh tt, trueStack s = hh :: tt → depEdge g n hh)
    (hs : ∀ x ∈ s.visited, x ∈ g.nodeIds) (hn : n ∈ g.nodeIds)
    (hmem : n ∈ trueStack s) : HasCycle g := by
  cases hts : trueStack s with
  | nil =>
    rw [hts] at hmem
    simp at hmem
  | cons hh tt =>
    have hedge : depEdge g n hh := hpend hh tt hts
    rw [hts] at hmem hch
    obtain ⟨pre, post, hsplit⟩ := List.append_of_mem hmem
    have hstacksub : ∀ x ∈ hh :: tt, x ∈ g.nodeIds := by
      intro x hx
      rw [← hts] at hx
      exact hs x (List.mem_of_mem_filter hx)
    refine ⟨n, pre, ?_, ?_⟩
    · cases pre with
      | nil =>
        have hhn : hh = n := by simpa using congrArg (fun l => l.headI) hsplit
        subst hhn
        exact List.Chain.cons hedge List.Chain.nil
      | cons q pre2 =>
        have hq0 : hh = q := by simpa using congrArg (fun l => l.headI) hsplit
        have hedgeq : depEdge g n q := hq0 ▸ hedge
        have htake : ((q :: pre2) ++ n :: post).take ((q :: pre2).length + 1)
            = (q :: pre2) ++ [n] := take_append_cons (q :: pre2) n post
        have hchpre : List.Chain' (depEdge g) ((q :: pre2) ++ [n]) := by
          rw [← htake, ← hsplit]
          exact hch.take _
        show List.Chain' (depEdge g) (n :: ((q :: pre2) ++ [n]))
        rw [List.chain'_cons']
        refine ⟨?_, hchpre⟩
        intro h hh2
        have hqh : q = h := by simpa using hh2
        exact hqh ▸ hedgeq
    · intro v hv
      rcases List.mem_cons.mp hv with rfl | hv
      · exact hn
      · refine hstacksub v ?_
        rw [hsplit]
        exact List.mem_append.mpr (Or.inl hv)

def CalcLevelCyc (g : Graph) (fuel : Nat) : Prop :=
  ∀ n s m, WellFormed g →
    s.visited.Nodup →
    List.Chain' (depEdge g) (trueStack s) →
    (∀ hh tt, trueStack s = hh :: tt → depEdge g n hh) →
    (∀ x ∈ s.visited, x ∈ g.nodeIds) →
    n ∈ g.nodeIds →
    calcLevel g fuel n s = .error (.cyclic m) → HasCycle g

def CalcLevelsCyc (g : Graph) (fuel : Nat) : Prop :=
  ∀ ds s m, WellFormed g →
    s.visited.Nodup →
    List.Chain' (depEdge g) (trueStack s) →
    (∀ d ∈ ds, ∀ hh tt, trueStack s = hh :: tt → depEdge g d hh) →
    (∀ x ∈ s.visited, x ∈ g.nodeIds) →
    (∀ d ∈ ds, d ∈ g.nodeIds) →
    calcLevels g fuel ds s = .error (.cyclic m) → HasCycle g

theorem calcLevelsCyc_of (g : Graph) (fuel : Nat) (hN : CalcLevelCyc g fuel) :
    CalcLevelsCyc g fuel := by
  intro ds
  induction ds with
  | nil =>
    intro s m _ _ _ _ _ _ hcon
    rw [calcLevels_nil] at hcon
    simp at hcon
  | cons d rest ih =>
    intro s m hWF hnd hch hpend hs hds hcon
    rw [calcLevels_cons] at hcon
    cases hv : calcLevel g fuel d s with
    | error e =>
      rw [hv] at hcon
      have : e = ExecError.cyclic m := by simpa using hcon
      subst this
      exact hN d s m hWF hnd hch (hpend d (List.mem_cons_self d rest)) hs
        (hds d (List.mem_cons_self d rest)) hv
    | ok p =>
      obtain ⟨l, s1⟩ := p
      rw [hv] at hcon
      dsimp only at hcon
      have P := calcLevelOK g fuel d s l s1 hv
      cases hr : calcLevels g fuel rest s1 with
      | error e =>
        rw [hr] at hcon
        have : e = ExecError.cyclic m := by simpa using hcon
        subst this
        refine ih s1 m hWF (P.visNodup hnd) ?_ ?_
          (P.visIds hWF (hds d (List.mem_cons_self d rest)) hs)
          (fun d2 hd2 => hds d2 (List.mem_cons_of_mem d hd2)) hr
        · rw [P.stackEq hnd]
          exact hch
        · intro d2 hd2 hh tt hst
          rw [P.stackEq hnd] at hst
          exact hpend d2 (List.mem_cons_of_mem d hd2) hh tt hst
      | ok q =>
        rw [hr] at hcon
        simp at hcon

theorem calcLevelCyc (g : Graph) : ∀ fuel, CalcLevelCyc g fuel := by
  intro fuel
  induction fuel with
  | zero =>
    intro n s m _ _ _ _ _ _ hcon
    rw [calcLevel_zero] at hcon
    simp at hcon
  | succ fuel ih =>
    intro n s m hWF hnd hch hpend hs hn hcon
    rw [calcLevel_succ] at hcon
    cases hm : lookupA s.memo n with
    | some l =>
      rw [hm] at hcon
      simp at hcon
    | none =>
      rw [hm] at hcon
      dsimp only at hcon
      by_cases h2 : n ∈ s.visited
      · refine stack_cycle g s n hch hpend hs hn ?_
        exact List.mem_filter.mpr ⟨h2, by rw [hm]; rfl⟩
      rw [if_neg h2] at hcon
      cases hdeps : getNodeDependencies g n with
      | nil =>
        rw [hdeps] at hcon
        simp at hcon
      | cons d rest =>
        rw [hdeps] at hcon
        dsimp only at hcon
        cases hsub : calcLevels g fuel (d :: rest) ⟨s.memo, n :: s.visited⟩ with
        | error e =>
          rw [hsub] at hcon
          have : e = ExecError.cyclic m := by simpa using hcon
          subst this
          have hpush := trueStack_push s n hm
          refine calcLevelsCyc_of g fuel ih (d :: rest) ⟨s.memo, n :: s.visited⟩ m
            hWF (List.nodup_cons.mpr ⟨h2, hnd⟩) ?_ ?_ ?_ ?_ hsub
          · rw [hpush, List.chain'_cons']
            refine ⟨?_, hch⟩
            intro h hh2
            cases hts : trueStack s with
            | nil =>
              rw [hts] at hh2
              simp at hh2
            | cons hh tt =>
              rw [hts] at hh2
              have hhh : hh = h := by simpa using hh2
              exact hhh ▸ hpend hh tt hts
          · intro d2 hd2 hh tt hst
            rw [hpush] at hst
            have : n = hh := (List.cons.injEq _ _ _ _ ▸ hst).1
            subst this
            show d2 ∈ getNodeDependencies g n
            rw [hdeps]
            exact hd2
          · intro x hx
            rcases List.mem_cons.mp hx with rfl | hx
            · exact hn
            · exact hs x hx
          · intro d2 hd2
            exact deps_subset_nodeIds g hWF n d2 (hdeps ▸ hd2)
        | ok q =>
          obtain ⟨ls, s2⟩ := q
          rw [hsub] at hcon
          simp at hcon

theorem calcAllLevels_cyclic (g : Graph) (hWF : WellFormed g) :
    ∀ ns s m,
      s.visited.Nodup → trueStack s = [] →
      (∀ x ∈ s.visited, x ∈ g.nodeIds) → (∀ x ∈ ns, x ∈ g.nodeIds) →
      calcAllLevels g (execFuel g) ns s = .error (.cyclic m) → HasCycle g := by
  intro ns
  induction ns with
  | nil =>
    intro s m _ _ _ _ hcon
    simp [calcAllLevels] at hcon
  | cons n ns ih =>
    intro s m hnd hts hs hns hcon
    simp only [calcAllLevels] at hcon
    cases hv : calcLevel g (execFuel g) n s with
    | error e =>
      rw [hv] at hcon
      have : e = ExecError.cyclic m := by simpa using hcon
      subst this
      refine calcLevelCyc g (execFuel g) n s m hWF hnd ?_ ?_ hs
        (hns n (List.mem_cons_self n ns)) hv
      · rw [hts]
        exact List.chain'_nil
      · intro hh tt hst
        rw [hts] at hst
        simp at hst
    | ok p =>
      obtain ⟨l, s1⟩ := p
      rw [hv] at hcon
      have P := calcLevelOK g (execFuel g) n s l s1 hv
      exact ih s1 m (P.visNodup hnd) ((P.stackEq hnd).trans hts)
        (P.visIds hWF (hns n (List.mem_cons_self n ns)) hs)
        (fun x hx => hns x (List.mem_cons_of_mem n hx)) hcon

/-- On a well-formed acyclic graph `buildExecutionLevels` succeeds. -/
theorem buildExecutionLevels_ok_of_acyclic (g : Graph) (hWF : WellFormed g)
    (hacyc : ¬ HasCycle g) : ∃ levels, buildExecutionLevels g = .ok levels := by
  unfold buildExecutionLevels
  cases h : calcAllLevels g (execFuel g) g.nodeIds ⟨[], []⟩ with
  | ok s => exact ⟨groupLevels s.memo, rfl⟩
  | error e =>
    exfalso
    rcases calcAllLevels_err g (execFuel g) g.nodeIds ⟨[], []⟩ e h with rfl | ⟨m, rfl⟩
    · exact absurd h (calcAllLevels_no_fuel g g.nodeIds ⟨[], []⟩ (by simp) (by simp)
        (fun n hn => nodeIds_subset_universe g n hn) (by simp [execFuel]))
    · exact hacyc (calcAllLevels_cyclic g hWF g.nodeIds ⟨[], []⟩ m (by simp)
        (by simp [trueStack]) (by simp) (fun x hx => hx) h)

end NodeExecutor

/-! ### The grouping loop of `buildExecutionLevels` -/

theorem filterMap_eq_map_of_forall_some {α β : Type} (f : α → Option β) (k : α → β)
    (l : List α) (h : ∀ x ∈ l, f x = some (k x)) : l.filterMap f = l.map k := by
  induction l with
  | nil => rfl
  | cons x t ih =>
    rw [List.filterMap_cons, h x (List.mem_cons_self x t), List.map_cons,
      ih (fun y hy => h y (List.mem_cons_of_mem x hy))]

namespace NodeExecutor

/-- The memoized nodes at level `i`, in memo insertion order. -/
def levelGroup (memo : List (NodeId × Nat)) (i : Nat) : List NodeId :=
  (memo.filter (fun p => decide (p.2 = i))).map Prod.fst

/-- The largest memoized level. -/
def maxMemoLevel (memo : List (NodeId × Nat)) : Nat :=
  (memo.map Prod.snd).foldl Nat.max 0

theorem groupLevels_eq_filterMap (memo : List (NodeId × Nat)) :
    groupLevels memo = (List.range (maxMemoLevel memo + 1)).filterMap
      (fun i => if (levelGroup memo i).isEmpty then none
        else some (levelGroup memo i)) := rfl

theorem groupLevels_eq (memo : List (NodeId × Nat))
    (hne : ∀ i ≤ maxMemoLevel memo, levelGroup memo i ≠ []) :
    groupLevels memo = (List.range (maxMemoLevel memo + 1)).map (levelGroup memo) := by
  rw [groupLevels_eq_filterMap]
  refine filterMap_eq_map_of_forall_some _ _ _ ?_
  intro i hi
  have hile : i ≤ maxMemoLevel memo := by
    have h2 := List.mem_range.mp hi
    omega
  have hfalse : (levelGroup memo i).isEmpty = false := by
    cases h : levelGroup memo i with
    | nil => exact absurd h (hne i hile)
    | cons a t => rfl
  rw [hfalse]
  simp

theorem mem_levelGroup (memo : List (NodeId × Nat))
    (hnod : (memoKeys memo).Nodup) (n : NodeId) (i : Nat) :
    n ∈ levelGroup memo i ↔ lookupA memo n = some i := by
  unfold levelGroup
  rw [lookupA_eq_some_iff_mem memo hnod]
  constructor
  · intro h
    obtain ⟨⟨a, b⟩, hp, hfst⟩ := List.mem_map.mp h
    obtain ⟨hmem, hsnd⟩ := List.mem_filter.mp hp
    simp only at hfst
    have hb : b = i := by simpa using hsnd
    rw [← hfst, ← hb]
    exact hmem
  · intro h
    exact List.mem_map.mpr ⟨(n, i), List.mem_filter.mpr ⟨h, by simp⟩, rfl⟩

theorem attained_down (g : Graph) (memo : List (NodeId × Nat))
    (hInv : MemoInv g memo) (hnod : (memoKeys memo).Nodup) (i : Nat)
    (h : ∃ p ∈ memo, p.2 = i + 1) : ∃ p ∈ memo, p.2 = i := by
  obtain ⟨⟨m, l⟩, hmem, hl⟩ := h
  simp only at hl
  subst hl
  have hLC := hInv (m, i + 1) hmem
  have hne : getNodeDependencies g m ≠ [] := by
    intro hco
    have h0 := hLC.1 hco
    simp at h0
  obtain ⟨hsomeD, hval⟩ := hLC.2 hne
  dsimp only at hval hsomeD hne
  have hmax : ((getNodeDependencies g m).map
      (fun d => (lookupA memo d).getD 0)).foldl Nat.max 0 = i := by omega
  have hmm : i ∈ (getNodeDependencies g m).map (fun d => (lookupA memo d).getD 0) := by
    rw [← hmax]
    apply foldl_max_mem
    simp [hne]
  obtain ⟨d, hd, hdi⟩ := List.mem_map.mp hmm
  obtain ⟨v, hv⟩ := Option.isSome_iff_exists.mp (hsomeD d hd)
  rw [hv] at hdi
  simp only [Option.getD_some] at hdi
  subst hdi
  exact ⟨(d, v), (lookupA_eq_some_iff_mem memo hnod d v).mp hv, rfl⟩

theorem attained_of_le_max (g : Graph) (memo : List (NodeId × Nat))
    (hInv : MemoInv g memo) (hnod : (memoKeys memo).Nodup) (hne : memo ≠ []) :
    ∀ i ≤ maxMemoLevel memo, ∃ p ∈ memo, p.2 = i := by
  have htop : ∃ p ∈ memo, p.2 = maxMemoLevel memo := by
    have hmm : maxMemoLevel memo ∈ memo.map Prod.snd := by
      apply foldl_max_mem
      simp [hne]
    exact List.mem_map.mp hmm
  have hdown : ∀ j, ∃ p ∈ memo, p.2 = maxMemoLevel memo - j := by
    intro j
    induction j with
    | zero => simpa using htop
    | succ j ih =>
      by_cases hj : maxMemoLevel memo ≤ j
      · have heq : maxMemoLevel memo - (j + 1) = maxMemoLevel memo - j := by omega
        rw [heq]
        exact ih
      · have heq : (maxMemoLevel memo - (j + 1)) + 1 = maxMemoLevel memo - j := by omega
        refine attained_down g memo hInv hnod _ ?_
        rw [heq]
        exact ih
  intro i hi
  have heq : i = maxMemoLevel memo - (maxMemoLevel memo - i) := by omega
  rw [heq]
  exact hdown _

theorem levelGroup_ne_nil (g : Graph) (memo : List (NodeId × Nat))
    (hInv : MemoInv g memo) (hnod : (memoKeys memo).Nodup) (hne : memo ≠ []) :
    ∀ i ≤ maxMemoLevel memo, levelGroup memo i ≠ [] := by
  intro i hi
  obtain ⟨p, hp, hpe⟩ := attained_of_le_max g memo hInv hnod hne i hi
  have hmem : p.1 ∈ levelGroup memo i :=
    List.mem_map.mpr ⟨p, List.mem_filter.mpr ⟨hp, by simp [hpe]⟩, rfl⟩
  exact List.ne_nil_of_mem hmem

theorem groupLevels_getElem (g : Graph) (memo : List (NodeId × Nat))
    (hInv : MemoInv g memo) (hnod : (memoKeys memo).Nodup) (hne : memo ≠ []) :
    ∀ i : Nat, (groupLevels memo)[i]? =
      if i < maxMemoLevel memo + 1 then some (levelGroup memo i) else none := by
  intro i
  rw [groupLevels_eq memo (levelGroup_ne_nil g memo hInv hnod hne),
    List.getElem?_map]
  by_cases hi : i < maxMemoLevel memo + 1
  · rw [List.getElem?_range hi, if_pos hi]
    rfl
  · have hlen : (List.range (maxMemoLevel memo + 1)).length ≤ i := by
      simpa using Nat.le_of_not_lt hi
    rw [List.getElem?_eq_none hlen, if_neg hi]
    rfl

theorem memo_level_le_max (memo : List (NodeId × Nat)) (n : NodeId) (l : Nat)
    (h : (n, l) ∈ memo) : l ≤ maxMemoLevel memo := by
  exact le_foldl_max _ _ (List.mem_map.mpr ⟨(n, l), h, rfl⟩)

theorem buildExecutionLevels_ok_inv (g : Graph) (hWF : WellFormed g)
    (levels : List (List NodeId))
    (h : buildExecutionLevels g = .ok levels) :
    ∃ memo, levels = groupLevels memo ∧ MemoInv g memo ∧
      (memoKeys memo).Nodup ∧
      (∀ n ∈ g.nodeIds, (lookupA memo n).isSome = true) ∧
      (∀ k ∈ memoKeys memo, k ∈ g.nodeIds) := by
  unfold buildExecutionLevels at h
  cases hc : calcAllLevels g (execFuel g) g.nodeIds ⟨[], []⟩ with
  | error e =>
    rw [hc] at h
    simp at h
  | ok s =>
    rw [hc] at h
    have hlev : groupLevels s.memo = levels := by simpa using h
    have P := calcAllLevels_ok g (execFuel g) g.nodeIds ⟨[], []⟩ s hc
    refine ⟨s.memo, hlev.symm, P.memoInvP ?_, P.keysNodup ?_, P.memoSome, ?_⟩
    · intro p hp
      simp at hp
    · simp [memoKeys]
    · exact P.keysIds hWF (fun x hx => hx) (by simp [memoKeys])

end NodeExecutor

/-! ## Claim C2 -/

instance (g : Graph) : Decidable (WellFormed g) :=
  inferInstanceAs (Decidable
    (∀ c ∈ g.connections, c.fromNode ∈ g.nodeIds ∧ c.toNode ∈ g.nodeIds))

instance (g : Graph) (memo : List (NodeId × Nat)) (m : NodeId) (l : Nat) :
    Decidable (NodeExecutor.LevelCorrect g memo m l) :=
  inferInstanceAs (Decidable
    ((getNodeDependencies g m = [] → l = 0) ∧
      (getNodeDependencies g m ≠ [] →
        (∀ d ∈ getNodeDependencies g m, (lookupA memo d).isSome = true) ∧
        l = ((getNodeDependencies g m).map
              (fun d => (lookupA memo d).getD 0)).foldl Nat.max 0 + 1)))

instance (g : Graph) (memo : List (NodeId × Nat)) :
    Decidable (NodeExecutor.MemoInv g memo) :=
  inferInstanceAs (Decidable (∀ p ∈ memo, NodeExecutor.LevelCorrect g memo p.1 p.2))

/-- Nodes A, B, C, D with connections A→C, B→C, C→D. -/
def diamondGraph : Graph :=
  ⟨["A", "B", "C", "D"],
    [⟨"c1", "A", "o", "C", "i1"⟩, ⟨"c2", "B", "o", "C", "i2"⟩,
      ⟨"c3", "C", "o", "D", "i"⟩]⟩

namespace NodeExecutor

theorem calcLevel_hit (g : Graph) (fuel : Nat) (n : NodeId) (s : LevelState) (l : Nat)
    (hm : lookupA s.memo n = some l) : calcLevel g (fuel + 1) n s = .ok (l, s) := by
  rw [calcLevel_succ, hm]

theorem calcLevel_leaf (g : Graph) (fuel : Nat) (n : NodeId) (s : LevelState)
    (hm : lookupA s.memo n = none) (h2 : n ∉ s.visited)
    (hdeps : getNodeDependencies g n = []) :
    calcLevel g (fuel + 1) n s = .ok (0, ⟨s.memo ++ [(n, 0)], n :: s.visited⟩) := by
  rw [calcLevel_succ, hm]
  dsimp only
  rw [if_neg h2, hdeps]

theorem calcLevel_nonleaf (g : Graph) (fuel : Nat) (n : NodeId) (s : LevelState)
    (d : NodeId) (rest : List NodeId)
    (hm : lookupA s.memo n = none) (h2 : n ∉ s.visited)
    (hdeps : getNodeDependencies g n = d :: rest)
    (ls : List Nat) (s2 : LevelState)
    (hsub : calcLevels g fuel (d :: rest) ⟨s.memo, n :: s.visited⟩ = .ok (ls, s2)) :
    calcLevel g (fuel + 1) n s = .ok (ls.foldl Nat.max 0 + 1,
      ⟨s2.memo ++ [(n, ls.foldl Nat.max 0 + 1)], s2.visited.erase n⟩) := by
  rw [calcLevel_succ, hm]
  dsimp only
  rw [if_neg h2, hdeps]
  dsimp only
  rw [hsub]

theorem calcAllLevels_cons_eq (g : Graph) (fuel : Nat) (n : NodeId) (ns : List NodeId)
    (s : LevelState) (l : Nat) (s1 : LevelState)
    (h : calcLevel g fuel n s = .ok (l, s1)) :
    calcAllLevels g fuel (n :: ns) s = calcAllLevels g fuel ns s1 := by
  simp only [calcAllLevels]
  rw [h]

end NodeExecutor

/-- The level computation on the diamond example, evaluated step by step
(the mutual recursion is compiled by well-founded recursion, so it does
not reduce definitionally). -/
theorem diamond_levels :
    NodeExecutor.buildExecutionLevels diamondGraph
      = .ok [["A", "B"], ["C"], ["D"]] := by
  have eA : NodeExecutor.calcLevel diamondGraph 5 "A" ⟨[], []⟩
      = .ok (0, ⟨[("A", 0)], ["A"]⟩) := by
    show NodeExecutor.calcLevel diamondGraph (4 + 1) "A" ⟨[], []⟩ = _
    exact NodeExecutor.calcLevel_leaf diamondGraph 4 "A" ⟨[], []⟩ rfl (by decide) rfl
  have eB : NodeExecutor.calcLevel diamondGraph 5 "B" ⟨[("A", 0)], ["A"]⟩
      = .ok (0, ⟨[("A", 0), ("B", 0)], ["B", "A"]⟩) := by
    show NodeExecutor.calcLevel diamondGraph (4 + 1) "B" _ = _
    exact NodeExecutor.calcLevel_leaf diamondGraph 4 "B" ⟨[("A", 0)], ["A"]⟩ rfl
      (by decide) rfl
  have eCA : NodeExecutor.calcLevel diamondGraph 4 "A"
      ⟨[("A", 0), ("B", 0)], ["C", "B", "A"]⟩
      = .ok (0, ⟨[("A", 0), ("B", 0)], ["C", "B", "A"]⟩) := by
    show NodeExecutor.calcLevel diamondGraph (3 + 1) "A" _ = _
    exact NodeExecutor.calcLevel_hit diamondGraph 3 "A" _ 0 rfl
  have eCB : NodeExecutor.calcLevel diamondGraph 4 "B"
      ⟨[("A", 0), ("B", 0)], ["C", "B", "A"]⟩
      = .ok (0, ⟨[("A", 0), ("B", 0)], ["C", "B", "A"]⟩) := by
    show NodeExecutor.calcLevel diamondGraph (3 + 1) "B" _ = _
    exact NodeExecutor.calcLevel_hit diamondGraph 3 "B" _ 0 rfl
  have eCs : NodeExecutor.calcLevels diamondGraph 4 ["A", "B"]
      ⟨[("A", 0), ("B", 0)], ["C", "B", "A"]⟩
      = .ok ([0, 0], ⟨[("A", 0), ("B", 0)], ["C", "B", "A"]⟩) := by
    rw [NodeExecutor.calcLevels_cons, eCA]
    dsimp only
    rw [NodeExecutor.calcLevels_cons, eCB]
    dsimp only
    rw [NodeExecutor.calcLevels_nil]
  have eC : NodeExecutor.calcLevel diamondGraph 5 "C"
      ⟨[("A", 0), ("B", 0)], ["B", "A"]⟩
      = .ok (1, ⟨[("A", 0), ("B", 0), ("C", 1)], ["B", "A"]⟩) := by
    show NodeExecutor.calcLevel diamondGraph (4 + 1) "C" _ = _
    exact NodeExecutor.calcLevel_nonleaf diamondGraph 4 "C"
      ⟨[("A", 0), ("B", 0)], ["B", "A"]⟩ "A" ["B"] rfl (by decide) rfl
      [0, 0] ⟨[("A", 0), ("B", 0)], ["C", "B", "A"]⟩ eCs
  have eDC : NodeExecutor.calcLevel diamondGraph 4 "C"
      ⟨[("A", 0), ("B", 0), ("C", 1)], ["D", "B", "A"]⟩
      = .ok (1, ⟨[("A", 0), ("B", 0), ("C", 1)], ["D", "B", "A"]⟩) := by
    show NodeExecutor.calcLevel diamondGraph (3 + 1) "C" _ = _
    exact NodeExecutor.calcLevel_hit diamondGraph 3 "C" _ 1 rfl
  have eDs : NodeExecutor.calcLevels diamondGraph 4 ["C"]
      ⟨[("A", 0), ("B", 0), ("C", 1)], ["D", "B", "A"]⟩
      = .ok ([1], ⟨[("A", 0), ("B", 0), ("C", 1)], ["D", "B", "A"]⟩) := by
    rw [NodeExecutor.calcLevels_cons, eDC]
    dsimp only
    rw [NodeExecutor.calcLevels_nil]
  have eD : NodeExecutor.calcLevel diamondGraph 5 "D"
      ⟨[("A", 0), ("B", 0), ("C", 1)], ["B", "A"]⟩
      = .ok (2, ⟨[("A", 0), ("B", 0), ("C", 1), ("D", 2)], ["B", "A"]⟩) := by
    show NodeExecutor.calcLevel diamondGraph (4 + 1) "D" _ = _
    exact NodeExecutor.calcLevel_nonleaf diamondGraph 4 "D"
      ⟨[("A", 0), ("B", 0), ("C", 1)], ["B", "A"]⟩ "C" [] rfl (by decide) rfl
      [1] ⟨[("A", 0), ("B", 0), ("C", 1)], ["D", "B", "A"]⟩ eDs
  have eAll : NodeExecutor.calcAllLevels diamondGraph 5 ["A", "B", "C", "D"] ⟨[], []⟩
      = .ok ⟨[("A", 0), ("B", 0), ("C", 1), ("D", 2)], ["B", "A"]⟩ := by
    rw [NodeExecutor.calcAllLevels_cons_eq _ _ _ _ _ _ _ eA,
      NodeExecutor.calcAllLevels_cons_eq _ _ _ _ _ _ _ eB,
      NodeExecutor.calcAllLevels_cons_eq _ _ _ _ _ _ _ eC,
      NodeExecutor.calcAllLevels_cons_eq _ _ _ _ _ _ _ eD]
    rfl
  have h1 : execFuel diamondGraph = 5 := rfl
  have h2 : diamondGraph.nodeIds = ["A", "B", "C", "D"] := rfl
  unfold NodeExecutor.buildExecutionLevels
  rw [h1, h2, eAll]
  rfl

/-- **C2.** On every well-formed acyclic graph, `buildExecutionLevels`
(the partition `executeParallel` runs level by level) succeeds and
partitions the nodes by a level function `f` with `f n = 0` when `n` has
no incoming connections and otherwise `f n = 1 +` the maximum of `f` over
the source nodes of `n`'s incoming connections: a node is a member of the
`i`-th level exactly when `i = f n`, and every node occurs in its level.
In particular the A→C, B→C, C→D graph yields `[[A, B], [C], [D]]`.
(Well-formedness — every connection references added nodes — is the
executor's `addConnection`/`removeNode` invariant.) -/
theorem executeParallel_level_partition :
    (∀ g : Graph, WellFormed g → ¬ HasCycle g →
      ∃ (levels : List (List NodeId)) (f : NodeId → Nat),
        NodeExecutor.buildExecutionLevels g = .ok levels ∧
        (∀ n ∈ g.nodeIds,
          (getNodeDependencies g n = [] → f n = 0) ∧
          (getNodeDependencies g n ≠ [] →
            f n = ((getNodeDependencies g n).map f).foldl Nat.max 0 + 1)) ∧
        (∀ n ∈ g.nodeIds, ∀ (i : Nat) (lvl : List NodeId),
          levels[i]? = some lvl → (n ∈ lvl ↔ i = f n)) ∧
        (∀ n ∈ g.nodeIds, ∃ lvl, levels[f n]? = some lvl ∧ n ∈ lvl) ∧
        (∀ (V : Type) (ex : Executor V), ex.toGraph = g →
          NodeExecutor.executedNodesPar ex = levels.flatten)) ∧
    NodeExecutor.buildExecutionLevels diamondGraph
      = .ok [["A", "B"], ["C"], ["D"]] := by
  constructor
  · intro g hWF hacyc
    obtain ⟨levels, hok⟩ := NodeExecutor.buildExecutionLevels_ok_of_acyclic g hWF hacyc
    obtain ⟨memo, hlev, hInv, hnod, hsome, hkeys⟩ :=
      NodeExecutor.buildExecutionLevels_ok_inv g hWF levels hok
    refine ⟨levels, fun n => (lookupA memo n).getD 0, hok, ?_, ?_, ?_, ?_⟩
    · intro n hn
      dsimp only
      obtain ⟨l, hl⟩ := Option.isSome_iff_exists.mp (hsome n hn)
      have hmem : (n, l) ∈ memo := (lookupA_eq_some_iff_mem memo hnod n l).mp hl
      have hLC := hInv (n, l) hmem
      dsimp only at hLC
      constructor
      · intro h0
        rw [hl, Option.getD_some]
        exact hLC.1 h0
      · intro hne0
        obtain ⟨hsomeD, hval⟩ := hLC.2 hne0
        rw [hl, Option.getD_some]
        exact hval
    · intro n hn i lvl hgl
      dsimp only
      have hmne : memo ≠ [] := by
        intro hco
        have := hsome n hn
        rw [hco] at this
        simp [lookupA] at this
      rw [hlev, NodeExecutor.groupLevels_getElem g memo hInv hnod hmne i] at hgl
      by_cases hi : i < NodeExecutor.maxMemoLevel memo + 1
      · rw [if_pos hi] at hgl
        have hlvl : lvl = NodeExecutor.levelGroup memo i := by simpa using hgl.symm
        subst hlvl
        rw [NodeExecutor.mem_levelGroup memo hnod n i]
        obtain ⟨l, hl⟩ := Option.isSome_iff_exists.mp (hsome n hn)
        rw [hl]
        constructor
        · intro h
          have hli : l = i := by simpa using h
          rw [← hli]
          rfl
        · intro h
          have hil : i = l := by simpa using h
          rw [hil]
      · rw [if_neg hi] at hgl
        simp at hgl
    · intro n hn
      dsimp only
      obtain ⟨l, hl⟩ := Option.isSome_iff_exists.mp (hsome n hn)
      have hmem : (n, l) ∈ memo := (lookupA_eq_some_iff_mem memo hnod n l).mp hl
      have hmne : memo ≠ [] := List.ne_nil_of_mem hmem
      have hle : l ≤ NodeExecutor.maxMemoLevel memo :=
        NodeExecutor.memo_level_le_max memo n l hmem
      refine ⟨NodeExecutor.levelGroup memo ((lookupA memo n).getD 0), ?_, ?_⟩
      · rw [hlev, NodeExecutor.groupLevels_getElem g memo hInv hnod hmne]
        rw [if_pos ?_]
        rw [hl, Option.getD_some]
        omega
      · rw [NodeExecutor.mem_levelGroup memo hnod]
        rw [hl, Option.getD_some]
    · intro V ex hexg
      unfold NodeExecutor.executedNodesPar
      rw [hexg, hok]
  · exact diamond_levels

theorem executeParallel_level_partition_witness :
    WellFormed diamondGraph ∧ ¬ HasCycle diamondGraph ∧
    (∃ (levels : List (List NodeId)) (f : NodeId → Nat),
      NodeExecutor.buildExecutionLevels diamondGraph = .ok levels ∧
      (∀ n ∈ diamondGraph.nodeIds,
        (getNodeDependencies diamondGraph n = [] → f n = 0) ∧
        (getNodeDependencies diamondGraph n ≠ [] →
          f n = ((getNodeDependencies diamondGraph n).map f).foldl Nat.max 0 + 1)) ∧
      (∀ n ∈ diamondGraph.nodeIds, ∀ (i : Nat) (lvl : List NodeId),
        levels[i]? = some lvl → (n ∈ lvl ↔ i = f n)) ∧
      (∀ n ∈ diamondGraph.nodeIds, ∃ lvl, levels[f n]? = some lvl ∧ n ∈ lvl) ∧
      (∀ (V : Type) (ex : Executor V), ex.toGraph = diamondGraph →
        NodeExecutor.executedNodesPar ex = levels.flatten)) :=
  have hWF : WellFormed diamondGraph := by decide
  have hacyc : ¬ HasCycle diamondGraph :=
    NodeExecutor.memoInv_no_cycle diamondGraph
      [("A", 0), ("B", 0), ("C", 1), ("D", 2)] (by decide) (by decide) (by decide)
  ⟨hWF, hacyc, executeParallel_level_partition.1 diamondGraph hWF hacyc⟩

end VzNode
